import Mathlib

set_option maxRecDepth 16384

/-!
Verification of the MarkdownViewer rendering pipeline.

This file shallowly embeds the rendering pipeline of the MarkdownViewer
application: the text normalizer (`src/utils/text_cleaner.py`), the
Markdown renderer with its HTML post-processing, sanitisation and document
assembly (`src/utils/markdown_renderer.py`), and the debounced update
scheduler of the preview widget (`src/widgets/markdown_preview.py`).

Strings are modelled as `List Char` (Python strings are sequences of
Unicode code points).  Calls into third-party libraries
(`unicodedata.normalize('NFC', ...)`, the `markdown` conversion engine,
`bleach.clean`, Qt timers) are modelled either by an explicit parameter
with documented hypotheses that the real library satisfies, or by a small
executable model of the library behaviour the code relies on; each such
model is marked in its doc comment.
-/

/-- Code points removed outright by `clean_text` (text_cleaner.py lines
23-27, 37, 40-43): pilcrow U+00B6, replacement character U+FFFD, word
joiner U+2060, zero-width space U+200B, zero-width non-joiner U+200C and
the BOM U+FEFF.  The zero-width joiner U+200D is deliberately absent. -/
def isRemovedPoint (c : Char) : Bool :=
  c.toNat = 0xB6 || c.toNat = 0xFFFD || c.toNat = 0x2060 ||
  c.toNat = 0x200B || c.toNat = 0x200C || c.toNat = 0xFEFF

/-- Paragraph separator U+2029 and line separator U+2028, both replaced
by a newline (text_cleaner.py lines 30-31). -/
def isSepPoint (c : Char) : Bool :=
  c.toNat = 0x2029 || c.toNat = 0x2028

/-- Non-breaking space U+00A0, narrow no-break space U+202F and figure
space U+2007, all replaced by an ordinary space (text_cleaner.py lines
34-36). -/
def isSpacePoint (c : Char) : Bool :=
  c.toNat = 0xA0 || c.toNat = 0x202F || c.toNat = 0x2007

/-- The control characters stripped by the regex on text_cleaner.py line
46: `[\u0000-\u0008\u000b\u000c\u000e-\u001f\u007f-\u009f]`. -/
def isCtrlPoint (c : Char) : Bool :=
  c.toNat ≤ 0x08 || c.toNat = 0x0B || c.toNat = 0x0C ||
  (0x0E ≤ c.toNat && c.toNat ≤ 0x1F) ||
  (0x7F ≤ c.toNat && c.toNat ≤ 0x9F)

/-- Per-character step of `clean_text` (text_cleaner.py lines 22-46).
The source applies a sequence of whole-string `str.replace` calls and one
`re.sub`; every one of them rewrites single code points (to nothing, to a
newline, or to a space), the four groups of points are pairwise disjoint,
and no later pattern matches an earlier replacement's output, so the
sequence is equivalent to one pass of this character map.  `none` means
the character is removed. -/
def cleanChar (c : Char) : Option Char :=
  if isRemovedPoint c then none
  else if isSepPoint c then some '\n'
  else if isSpacePoint c then some ' '
  else if isCtrlPoint c then none
  else some c

/-- The replace/remove passes of `clean_text` before Unicode normalisation
(text_cleaner.py lines 22-46), as one `filterMap`. -/
def charClean (l : List Char) : List Char :=
  l.filterMap cleanChar

/-- First half of line-ending normalisation (text_cleaner.py line 52):
`cleaned.replace('\r\n', '\n')`.  Because the pattern is two characters
whose second character can never start another match, the left-to-right
non-overlapping scan of `str.replace` is equivalent to deleting every
`'\r'` that is immediately followed by `'\n'`. -/
def dropCrOfCrLf : List Char → List Char
  | [] => []
  | c :: rest =>
    if c = '\r' ∧ rest.head? = some '\n' then dropCrOfCrLf rest
    else c :: dropCrOfCrLf rest

/-- Second half of line-ending normalisation (text_cleaner.py line 52):
`.replace('\r', '\n')`. -/
def crToLf (c : Char) : Char :=
  if c = '\r' then '\n' else c

/-- Line-ending normalisation (text_cleaner.py line 52):
`cleaned.replace('\r\n', '\n').replace('\r', '\n')`. -/
def normNewlines (l : List Char) : List Char :=
  (dropCrOfCrLf l).map crToLf

/-- `clean_text` (text_cleaner.py lines 9-54).  The call
`unicodedata.normalize('NFC', cleaned)` into the Python standard library
is the parameter `nfc`; theorems state the properties of `nfc` they need
as hypotheses, which the real NFC normalisation satisfies. -/
def clean_text (nfc : List Char → List Char) (text : List Char) : List Char :=
  if text = [] then text
  else normNewlines (nfc (charClean text))

/-- Removal of every occurrence of `pat` from `l`, scanning left to right
over the input only, exactly as one Python `str.replace(pat, '')` pass
(replacements are not rescanned).  `fuel` is a totality device; it is
always called with `fuel = l.length`, which suffices. -/
def removeAllGo (pat : List Char) : Nat → List Char → List Char
  | 0, l => l
  | _ + 1, [] => []
  | fuel + 1, c :: cs =>
    if pat ≠ [] ∧ pat.isPrefixOf (c :: cs) then
      removeAllGo pat fuel (List.drop pat.length (c :: cs))
    else
      c :: removeAllGo pat fuel cs

/-- One `str.replace(pat, '')` pass. -/
def removeAll (pat l : List Char) : List Char :=
  removeAllGo pat l.length l

/-- `clean_html` (text_cleaner.py lines 57-79): `clean_text` followed by
removal of the three pilcrow entity spellings, in source order. -/
def clean_html (nfc : List Char → List Char) (html : List Char) : List Char :=
  if html = [] then html
  else
    removeAll "&#x00B6;".data
      (removeAll "&#182;".data
        (removeAll "&para;".data (clean_text nfc html)))

/-- Zero-width joiner U+200D, kept by `clean_text` for emoji sequences. -/
def zwj : Char := Char.ofNat 0x200D

/-- The joined emoji sequence U+1F468 U+200D U+1F469. -/
def emojiFamily : List Char := [Char.ofNat 0x1F468, zwj, Char.ofNat 0x1F469]

/-- A character list is clean when the per-character cleaner fixes every
character in it. -/
def CleanChars (l : List Char) : Prop := ∀ c ∈ l, cleanChar c = some c

/-- Python `str.isspace` (the characters stripped by `str.strip()` with
no argument): ASCII whitespace 0x09-0x0D, the C0 separators 0x1C-0x1F,
space, NEL 0x85, and the Unicode space/line/paragraph separators. -/
def pyIsSpace (c : Char) : Bool :=
  (decide (0x09 ≤ c.toNat) && decide (c.toNat ≤ 0x0D)) ||
  (decide (0x1C ≤ c.toNat) && decide (c.toNat ≤ 0x1F)) ||
  c.toNat = 0x20 || c.toNat = 0x85 || c.toNat = 0xA0 || c.toNat = 0x1680 ||
  (decide (0x2000 ≤ c.toNat) && decide (c.toNat ≤ 0x200A)) ||
  c.toNat = 0x2028 || c.toNat = 0x2029 || c.toNat = 0x202F ||
  c.toNat = 0x205F || c.toNat = 0x3000

/-- Python `str.strip()`: drop whitespace from both ends.  `render` only
uses it through the truthiness test `not markdown_text.strip()`. -/
def pyStrip (l : List Char) : List Char :=
  ((l.dropWhile pyIsSpace).reverse.dropWhile pyIsSpace).reverse

/-- The opening of a `pre` tag: the literal part of the regex
`<pre([^>]*)>` (markdown_renderer.py line 148). -/
def prePat : List Char := "<pre".data

/-- The literal part of the regex `<div class="codehilite"([^>]*)>`
(markdown_renderer.py line 155). -/
def divPat : List Char := "<div class=\"codehilite\"".data

/-- The literal part of `<code([^>]*)>` inside the third regex
(markdown_renderer.py line 162). -/
def codePat : List Char := "<code".data

/-- The inline style attribute injected into every `pre` tag and every
`codehilite` div (markdown_renderer.py lines 149 and 156; the two
replacement strings carry the identical style text). -/
def styleBlock : List Char :=
  " style=\"background-color: #161b22 !important; background-image: none !important; background: #161b22 !important; padding: 16px; border-radius: 8px; border: 1px solid #30363d; margin: 16px 0; display: block; line-height: 0.9; white-space: pre; font-family: Consolas, Monaco, monospace;\"".data

/-- The inline style attribute injected into a `code` tag following a
`pre` tag (markdown_renderer.py line 163). -/
def codeStyle : List Char :=
  " style=\"background-color: transparent !important; background-image: none !important; background: transparent !important; color: #e6edf3; line-height: 0.9; white-space: pre;\"".data

/-- Matcher for `([^>]*)>`: `splitTag l = some (m, r)` exactly when
`l = m ++ '>' :: r` with `m` free of `'>'`; since `[^>]*` cannot pass a
`'>'`, the regex deterministically matches up to the first `'>'`. -/
def splitTag : List Char → Option (List Char × List Char)
  | [] => none
  | c :: cs =>
    if c = '>' then some ([], cs)
    else
      match splitTag cs with
      | some (m, r) => some (c :: m, r)
      | none => none

/-- One `re.sub(r'<pre([^>]*)>', ...)` pass (markdown_renderer.py lines
147-151): scan left to right; at each position try to match; on a match
emit the replacement and resume after the match (replacements are never
rescanned).  `fuel` is a totality device, always called with the input
length, which suffices because the resume point is a proper suffix. -/
def sub1Go : Nat → List Char → List Char
  | 0, l => l
  | _ + 1, [] => []
  | fuel + 1, c :: cs =>
    if prePat.isPrefixOf (c :: cs) then
      match splitTag (List.drop 4 (c :: cs)) with
      | some (m, rest) => prePat ++ m ++ styleBlock ++ '>' :: sub1Go fuel rest
      | none => c :: sub1Go fuel cs
    else c :: sub1Go fuel cs

/-- The first substitution of `_fix_code_block_styling`. -/
def sub1 (l : List Char) : List Char := sub1Go l.length l

/-- One `re.sub(r'<div class="codehilite"([^>]*)>', ...)` pass
(markdown_renderer.py lines 154-158), same scan discipline as `sub1Go`. -/
def sub2Go : Nat → List Char → List Char
  | 0, l => l
  | _ + 1, [] => []
  | fuel + 1, c :: cs =>
    if divPat.isPrefixOf (c :: cs) then
      match splitTag (List.drop divPat.length (c :: cs)) with
      | some (m, rest) => divPat ++ m ++ styleBlock ++ '>' :: sub2Go fuel rest
      | none => c :: sub2Go fuel cs
    else c :: sub2Go fuel cs

/-- The second substitution of `_fix_code_block_styling`. -/
def sub2 (l : List Char) : List Char := sub2Go l.length l

/-- The lazy tail `.*?<code([^>]*)>` of the third regex under
`re.DOTALL`: the earliest position where `<code` matches and a closing
`'>'` follows.  `findCode l = some (mid, attrs, rest)` means
`l = mid ++ "<code" ++ attrs ++ '>' :: rest` with `attrs` free of `'>'`
and `mid` minimal. -/
def findCode : List Char → Option (List Char × List Char × List Char)
  | [] => none
  | c :: cs =>
    if codePat.isPrefixOf (c :: cs) then
      match splitTag (List.drop 5 (c :: cs)) with
      | some (attrs, rest) => some ([], attrs, rest)
      | none => (findCode cs).map fun x => (c :: x.1, x.2.1, x.2.2)
    else (findCode cs).map fun x => (c :: x.1, x.2.1, x.2.2)

/-- One `re.sub(r'(<pre[^>]*>.*?)<code([^>]*)>', ...)` pass under
`re.DOTALL` (markdown_renderer.py lines 161-166): group 1 (the `pre` tag
and everything up to the first following `code` tag) is kept verbatim,
the `code` tag gets `codeStyle` injected, and scanning resumes after the
match, so only the first `code` tag after each `pre` opening is
restyled. -/
def sub3Go : Nat → List Char → List Char
  | 0, l => l
  | _ + 1, [] => []
  | fuel + 1, c :: cs =>
    if prePat.isPrefixOf (c :: cs) then
      match splitTag (List.drop 4 (c :: cs)) with
      | some (m1, r1) =>
        match findCode r1 with
        | some (mid, attrs, rest) =>
          prePat ++ m1 ++ '>' ::
            (mid ++ codePat ++ attrs ++ codeStyle ++ '>' :: sub3Go fuel rest)
        | none => c :: sub3Go fuel cs
      | none => c :: sub3Go fuel cs
    else c :: sub3Go fuel cs

/-- The third substitution of `_fix_code_block_styling`. -/
def sub3 (l : List Char) : List Char := sub3Go l.length l

/-- `_fix_code_block_styling` (markdown_renderer.py lines 136-168): the
three regex substitutions in source order. -/
def fixCodeBlockStyling (html : List Char) : List Char :=
  sub3 (sub2 (sub1 html))


/-- Checker for one scan position of the post-processor verification: if
`pat` matches at the head of `l` and a complete `[^>]*>` span follows,
that span must contain `S`. -/
def chkAt (pat S l : List Char) : Bool :=
  if pat.isPrefixOf l then
    match splitTag (l.drop pat.length) with
    | some (m, _) => decide (S <:+: m)
    | none => true
  else true

/-- Checker over every scan position of `l`: every occurrence of `pat`
that is followed by a `'>'`-free span and then `'>'` has `S` inside that
span. -/
def tagChk (pat S : List Char) : List Char → Bool
  | [] => true
  | c :: cs => chkAt pat S (c :: cs) && tagChk pat S cs

/-- Internal state of the long-lived `markdown.Markdown` processor
instance, modelled from the behaviour of the `toc` extension the code
resets against (spec section 4.2): the set of heading ids already handed
out, and the table-of-contents buffer of the last conversion. -/
structure MdState where
  usedIds : List String
  toc : Option (List Char)
deriving DecidableEq

/-- `Markdown.reset()` (markdown_renderer.py line 113): clears the
accumulated heading ids; the `toc` extension resets its buffer to the
empty string. -/
def resetState : MdState := ⟨[], some []⟩

/-- `get_toc` (markdown_renderer.py lines 236-245): returns the
processor's `toc` attribute when it exists and is truthy (non-empty). -/
def get_toc (st : MdState) : Option (List Char) :=
  match st.toc with
  | some t => if t = [] then none else some t
  | none => none

/-- The fragment built on the exception path (markdown_renderer.py line
133): `f"<p><strong>Error rendering Markdown:</strong> {str(e)}</p>"`. -/
def errorHtml (e : List Char) : List Char :=
  "<p><strong>Error rendering Markdown:</strong> ".data ++ e ++ "</p>".data

/-- The document template (markdown_renderer.py lines 219-234) up to the
first interpolation `{self._style_css}`. -/
def docHead : List Char :=
  "<!DOCTYPE html>\n<html lang=\"en\">\n<head>\n    <meta charset=\"UTF-8\">\n    <meta name=\"viewport\" content=\"width=device-width, initial-scale=1.0\">\n    <title>Markdown Preview</title>\n    <style>\n".data

/-- The template text between `{self._style_css}` and
`{self._pygments_css}`. -/
def docMid1 : List Char := "\n\n".data

/-- The template text between `{self._pygments_css}` and
`{clean_body}`. -/
def docMid2 : List Char := "\n    </style>\n</head>\n<body>\n".data

/-- The template text after `{clean_body}`. -/
def docTail : List Char := "\n</body>\n</html>".data

/-- The fixed collaborators of a `MarkdownRenderer` instance: the NFC
normalisation and the three library calls (`markdown` conversion,
`bleach.clean`), plus the two stylesheets loaded once at construction
(either file may be missing, degrading to the empty string, so they are
arbitrary here). -/
structure RendererCtx where
  nfc : List Char → List Char
  conv : MdState → List Char → Except (List Char) (MdState × List Char)
  san : List Char → List Char
  style_css : List Char
  pygments_css : List Char

/-- `_create_html_document` (markdown_renderer.py lines 206-234). -/
def create_html_document (ctx : RendererCtx) (body_content : List Char) :
    List Char :=
  docHead ++ ctx.style_css ++ docMid1 ++ ctx.pygments_css ++ docMid2 ++
    clean_html ctx.nfc body_content ++ docTail

/-- `render` (markdown_renderer.py lines 97-134).  The conversion engine
is the context's `conv`, taking the processor state after the explicit
`reset()` call on line 113; a Python exception inside the `try` block is
an `Except.error` carrying `str(e)`.  On the error path the processor
state is the reset state (the source's reset already ran; no claim
depends on any partial mutation the failing conversion may have left). -/
def render (ctx : RendererCtx) (proc : MdState) (markdown_text : List Char)
    (sanitize : Bool) : MdState × List Char :=
  if pyStrip markdown_text = [] then
    (proc, create_html_document ctx [])
  else
    match ctx.conv resetState (clean_text ctx.nfc markdown_text) with
    | .ok (proc', html_content) =>
      let fixed := fixCodeBlockStyling html_content
      let sanitized := if sanitize then ctx.san fixed else fixed
      (proc', create_html_document ctx sanitized)
    | .error e => (resetState, create_html_document ctx (errorHtml e))


/-- Modelled from the `markdown` library (spec section 4.2): the slug of
a heading text, lowercase with spaces as hyphens and other
non-alphanumeric characters dropped. -/
def slugify (s : List Char) : List Char :=
  s.filterMap fun c =>
    if c = ' ' then some '-'
    else if c.isAlpha then some c.toLower
    else if c.isDigit then some c
    else none

/-- Modelled from the `toc` extension's id de-duplication: append `_1`,
`_2`, ... until the candidate is unused.  `fuel` is a totality device;
`used.length + 1` candidates cannot all collide. -/
def uniqueGo (used : List String) (base : String) : Nat → Nat → String
  | 0, _ => base
  | fuel + 1, n =>
    let cand := base ++ "_" ++ toString n
    if cand ∈ used then uniqueGo used base fuel (n + 1) else cand

/-- Modelled from the `toc` extension: a heading id unique against the
ids already handed out by the processor. -/
def uniqueSlug (used : List String) (base : String) : String :=
  if base ∈ used then uniqueGo used base (used.length + 1) 1 else base

/-- Number of leading `'#'` characters of a line. -/
def headingLevel (line : List Char) : Nat :=
  (line.takeWhile fun c => c = '#').length

/-- Modelled from the `markdown` library with the extension set of
`_create_markdown_processor` (markdown_renderer.py lines 29-63), reduced
to what the claims observe: ATX headings become
`<h{k} id="slug">text</h{k}>` with the slug made unique against the
processor's accumulated `usedIds` (the cross-call state that
`Markdown.reset()` clears), other non-empty lines become paragraphs, and
the run's table of contents is stored in the returned state.  The model
itself never fails; the error-path claims quantify over the converter
instead. -/
def mdConvert (st : MdState) (text : List Char) :
    Except (List Char) (MdState × List Char) :=
  let step := fun (acc : List String × List Char × List Char)
      (line : List Char) =>
    let used := acc.1
    let html := acc.2.1
    let toc := acc.2.2
    let k := headingLevel line
    if 1 ≤ k ∧ k ≤ 6 ∧ (line.drop k).head? = some ' ' then
      let txt := line.drop (k + 1)
      let slug := uniqueSlug used (String.mk (slugify txt))
      (used ++ [slug],
       html ++ "<h".data ++ (toString k).data ++ " id=\"".data ++ slug.data ++
         "\">".data ++ txt ++ "</h".data ++ (toString k).data ++ ">".data,
       toc ++ "<li><a href=\"#".data ++ slug.data ++ "\">".data ++ txt ++
         "</a></li>".data)
    else if line = [] then acc
    else (used, html ++ "<p>".data ++ line ++ "</p>".data, toc)
  let res := (text.splitOn '\n').foldl step (st.usedIds, [], [])
  Except.ok (⟨res.1, some ("<div class=\"toc\"><ul>".data ++ res.2.2 ++
    "</ul></div>".data)⟩, res.2.1)

/-- Probe showing the modelled converter really is stateful when the
`reset()` call is skipped: the HTML of a second conversion that reuses
the state of a first conversion of the same text. -/
def convertTwice (t : List Char) : List Char :=
  match mdConvert ⟨[], none⟩ t with
  | .ok (st1, _) =>
    match mdConvert st1 t with
    | .ok (_, html2) => html2
    | .error e => e
  | .error e => e

/-- HTML token, the unit on which the sanitiser acts: an opening or
closing tag with its attributes, or a text run.  `bleach.clean` parses
the fragment into such tokens; the parse itself is the library boundary
and is not modelled. -/
inductive HtmlTok where
  | tag : Bool → String → List (String × String) → HtmlTok
  | text : String → HtmlTok
deriving DecidableEq

/-- The tag allow-list of `_sanitize_html` (markdown_renderer.py lines
182-188). -/
def allowed_tags : List String :=
  ["a", "abbr", "acronym", "b", "blockquote", "br", "code", "dd", "del",
   "div", "dl", "dt", "em", "h1", "h2", "h3", "h4", "h5", "h6", "hr",
   "i", "img", "ins", "kbd", "li", "ol", "p", "pre", "q", "s", "samp",
   "span", "strong", "sub", "sup", "table", "tbody", "td", "tfoot", "th",
   "thead", "tr", "tt", "u", "ul", "var"]

/-- The per-tag attribute allow-list of `_sanitize_html`
(markdown_renderer.py lines 190-197): `class` and `id` on any tag plus
the tag-specific entries. -/
def allowed_attributes (tag : String) : List String :=
  ["class", "id"] ++
  (if tag = "a" then ["href", "title", "name"]
   else if tag = "img" then ["src", "alt", "title", "width", "height"]
   else if tag = "table" then ["border", "cellpadding", "cellspacing"]
   else if tag = "td" ∨ tag = "th" then ["colspan", "rowspan"]
   else [])

/-- Modelled from `bleach.clean(html, tags=..., attributes=...,
strip=True)` as called by `_sanitize_html` (markdown_renderer.py lines
199-204): a disallowed tag is removed while text runs (its former
content) are kept; an allowed tag keeps exactly its allowed attributes. -/
def sanitizeTok (tk : HtmlTok) : Option HtmlTok :=
  match tk with
  | .tag closing n attrs =>
    if n ∈ allowed_tags then
      some (.tag closing n (attrs.filter fun p => p.1 ∈ allowed_attributes n))
    else none
  | .text _ => some tk

/-- The sanitiser over a token stream. -/
def sanitizeToks (ts : List HtmlTok) : List HtmlTok :=
  ts.filterMap sanitizeTok

/-- Serialisation of one token back to HTML text. -/
def serializeTok : HtmlTok → List Char
  | .tag true n _ => "</".data ++ n.data ++ ">".data
  | .tag false n attrs =>
    "<".data ++ n.data ++
      (attrs.foldr (fun p acc =>
        " ".data ++ p.1.data ++ "=\"".data ++ p.2.data ++ "\"".data ++ acc)
        []) ++ ">".data
  | .text s => s.data

/-- Serialisation of a token stream. -/
def serializeToks (ts : List HtmlTok) : List Char :=
  ts.foldr (fun tk acc => serializeTok tk ++ acc) []

/-- The text run of a token, if it is one. -/
def tokText : HtmlTok → Option String
  | .text s => some s
  | _ => none

/-- The token stream of `<script>alert(1)</script><p>ok</p>`. -/
def scriptExample : List HtmlTok :=
  [.tag false "script" [], .text "alert(1)", .tag true "script" [],
   .tag false "p" [], .text "ok", .tag true "p" []]

/-- The token stream of `<a href="x" onclick="y">t</a>`. -/
def anchorExample : List HtmlTok :=
  [.tag false "a" [("href", "x"), ("onclick", "y")], .text "t",
   .tag true "a" []]

/-- Debounce scheduler (markdown_preview.py lines 48-51 and 135-150),
modelled from `set_markdown_content` and the single-shot `QTimer`: each
event `(t, s)` in the time-sorted stream overwrites the recorded content
with `s`, stops any armed timer and re-arms it for `t + window`; the
armed timer fires only if no further event arrives before it expires.
`fires window events` is the list of `(fire time, rendered content)`
pairs this produces. -/
def fires (window : Nat) : List (Nat × List Char) → List (Nat × List Char)
  | [] => []
  | [(t, s)] => [(t + window, s)]
  | (t1, s1) :: (t2, s2) :: rest =>
    if t2 < t1 + window then fires window ((t2, s2) :: rest)
    else (t1 + window, s1) :: fires window ((t2, s2) :: rest)


theorem cleanChar_fix {c c' : Char} (h : cleanChar c = some c') :
    cleanChar c' = some c' := by
  unfold cleanChar at h ⊢
  by_cases h1 : isRemovedPoint c = true
  · rw [if_pos h1] at h
    exact absurd h (by simp)
  · rw [if_neg h1] at h
    by_cases h2 : isSepPoint c = true
    · rw [if_pos h2] at h
      cases h
      decide
    · rw [if_neg h2] at h
      by_cases h3 : isSpacePoint c = true
      · rw [if_pos h3] at h
        cases h
        decide
      · rw [if_neg h3] at h
        by_cases h4 : isCtrlPoint c = true
        · rw [if_pos h4] at h
          exact absurd h (by simp)
        · rw [if_neg h4] at h
          cases h
          rw [if_neg h1, if_neg h2, if_neg h3, if_neg h4]

theorem charClean_clean (l : List Char) : CleanChars (charClean l) := by
  intro c hc
  unfold charClean at hc
  rcases List.mem_filterMap.mp hc with ⟨a, _, ha⟩
  exact cleanChar_fix ha

theorem charClean_of_clean {l : List Char} (h : CleanChars l) :
    charClean l = l := by
  induction l with
  | nil => rfl
  | cons c cs ih =>
    have hc : cleanChar c = some c := h c (List.mem_cons_self c cs)
    have hcs : CleanChars cs := fun x hx => h x (List.mem_cons_of_mem c hx)
    unfold charClean at ih ⊢
    rw [List.filterMap_cons, hc, ih hcs]

theorem mem_dropCrOfCrLf {c : Char} {l : List Char}
    (h : c ∈ dropCrOfCrLf l) : c ∈ l := by
  induction l with
  | nil => exact absurd h (by simp [dropCrOfCrLf])
  | cons a rest ih =>
    unfold dropCrOfCrLf at h
    by_cases ha : a = '\r' ∧ rest.head? = some '\n'
    · rw [if_pos ha] at h
      exact List.mem_cons_of_mem _ (ih h)
    · rw [if_neg ha] at h
      rcases List.mem_cons.mp h with h | h
      · exact h ▸ List.mem_cons_self a rest
      · exact List.mem_cons_of_mem _ (ih h)

theorem mem_normNewlines {c : Char} {l : List Char}
    (h : c ∈ normNewlines l) : c ∈ l ∨ c = '\n' := by
  unfold normNewlines at h
  rcases List.mem_map.mp h with ⟨a, ha, rfl⟩
  by_cases hr : a = '\r'
  · exact Or.inr (by simp [crToLf, hr])
  · exact Or.inl (by simpa [crToLf, hr] using mem_dropCrOfCrLf ha)

theorem normNewlines_no_cr (l : List Char) : '\r' ∉ normNewlines l := by
  intro h
  unfold normNewlines at h
  rcases List.mem_map.mp h with ⟨a, _, ha⟩
  by_cases hr : a = '\r' <;> simp [crToLf, hr] at ha

theorem dropCrOfCrLf_of_no_cr {l : List Char} (h : '\r' ∉ l) :
    dropCrOfCrLf l = l := by
  induction l with
  | nil => rfl
  | cons a rest ih =>
    have ha : a ≠ '\r' := fun hx => h (hx ▸ List.mem_cons_self a rest)
    unfold dropCrOfCrLf
    rw [if_neg (by simp [ha]), ih (fun hx => h (List.mem_cons_of_mem _ hx))]

theorem map_crToLf_of_no_cr {l : List Char} (h : '\r' ∉ l) :
    l.map crToLf = l := by
  induction l with
  | nil => rfl
  | cons a rest ih =>
    have ha : a ≠ '\r' := fun hx => h (hx ▸ List.mem_cons_self a rest)
    simp [crToLf, ha, ih (fun hx => h (List.mem_cons_of_mem _ hx))]

theorem normNewlines_of_no_cr {l : List Char} (h : '\r' ∉ l) :
    normNewlines l = l := by
  unfold normNewlines
  rw [dropCrOfCrLf_of_no_cr h]
  exact map_crToLf_of_no_cr h

theorem normNewlines_clean {l : List Char} (h : CleanChars l) :
    CleanChars (normNewlines l) := by
  intro c hc
  rcases mem_normNewlines hc with hm | hm
  · exact h c hm
  · rw [hm]
    decide

/-- C5: `clean_text` is total (it is a Lean function) and removes the
pilcrow U+00B6, the replacement character U+FFFD and the zero-width
characters U+200B, U+200C, U+2060 and U+FEFF, replaces U+2028/U+2029 with
a newline, and never removes the zero-width joiner U+200D; in particular
`clean_text "a¶b" = "ab"` and a string consisting of the joined emoji
sequence U+1F468 U+200D U+1F469 is unchanged.  The two hypotheses state
that NFC normalisation fixes the two concrete cleaned strings, which
holds of the real NFC (they contain no decomposable or combining
characters). -/
theorem C5_clean_text_characters (nfc : List Char → List Char)
    (hab : nfc ['a', 'b'] = ['a', 'b'])
    (hemoji : nfc emojiFamily = emojiFamily) :
    clean_text nfc ['a', Char.ofNat 0xB6, 'b'] = ['a', 'b'] ∧
    clean_text nfc emojiFamily = emojiFamily ∧
    cleanChar (Char.ofNat 0xB6) = none ∧
    cleanChar (Char.ofNat 0xFFFD) = none ∧
    cleanChar (Char.ofNat 0x200B) = none ∧
    cleanChar (Char.ofNat 0x200C) = none ∧
    cleanChar (Char.ofNat 0x2060) = none ∧
    cleanChar (Char.ofNat 0xFEFF) = none ∧
    cleanChar (Char.ofNat 0x2028) = some '\n' ∧
    cleanChar (Char.ofNat 0x2029) = some '\n' ∧
    cleanChar zwj = some zwj := by
  refine ⟨?_, ?_, by decide, by decide, by decide, by decide, by decide,
    by decide, by decide, by decide, by decide⟩
  · unfold clean_text
    rw [if_neg (by decide)]
    have hc : charClean ['a', Char.ofNat 0xB6, 'b'] = ['a', 'b'] := by decide
    rw [hc, hab]
    decide
  · unfold clean_text
    rw [if_neg (by decide)]
    have hc : charClean emojiFamily = emojiFamily := by decide
    rw [hc, hemoji]
    decide

/-- Witness for C5 at the identity normalisation. -/
theorem C5_witness :
    clean_text id ['a', Char.ofNat 0xB6, 'b'] = ['a', 'b'] ∧
    clean_text id emojiFamily = emojiFamily ∧
    cleanChar (Char.ofNat 0xB6) = none ∧
    cleanChar (Char.ofNat 0xFFFD) = none ∧
    cleanChar (Char.ofNat 0x200B) = none ∧
    cleanChar (Char.ofNat 0x200C) = none ∧
    cleanChar (Char.ofNat 0x2060) = none ∧
    cleanChar (Char.ofNat 0xFEFF) = none ∧
    cleanChar (Char.ofNat 0x2028) = some '\n' ∧
    cleanChar (Char.ofNat 0x2029) = some '\n' ∧
    cleanChar zwj = some zwj :=
  C5_clean_text_characters id rfl rfl

/-- C6: normalisation is idempotent.  The hypotheses are the two facts
about NFC the proof needs, both guaranteed by the Unicode standard:
NFC never introduces the problematic characters this cleaner strips
(composition only produces canonical composites, none of which are
format/control/separator characters), and text that is NFC-normalised
stays normalised after CR/CRLF line-ending rewriting (carriage returns
and newlines take part in no canonical composition). -/
theorem C6_clean_text_idempotent (nfc : List Char → List Char)
    (h2 : ∀ l, CleanChars l → CleanChars (nfc l))
    (h3 : ∀ l, nfc (normNewlines (nfc l)) = normNewlines (nfc l))
    (t : List Char) :
    clean_text nfc (clean_text nfc t) = clean_text nfc t := by
  by_cases ht : t = []
  · subst ht
    rfl
  · unfold clean_text
    rw [if_neg ht]
    by_cases hyy : normNewlines (nfc (charClean t)) = []
    · rw [if_pos hyy]
    · rw [if_neg hyy]
      have hclean : CleanChars (normNewlines (nfc (charClean t))) :=
        normNewlines_clean (h2 _ (charClean_clean t))
      rw [charClean_of_clean hclean, h3]
      exact normNewlines_of_no_cr (normNewlines_no_cr _)

/-- Witness for C6 at the identity normalisation and a concrete input
containing a carriage return and a pilcrow. -/
theorem C6_witness :
    clean_text id (clean_text id ['\r', 'a', Char.ofNat 0xB6]) =
      clean_text id ['\r', 'a', Char.ofNat 0xB6] :=
  C6_clean_text_idempotent id (fun _ h => h) (fun _ => rfl) _

theorem infix_appL {p A : List Char} (B : List Char) (h : p <:+: A) :
    p <:+: A ++ B := by
  obtain ⟨s, t, rfl⟩ := h
  exact ⟨s, t ++ B, by simp⟩

theorem infix_appR {p B : List Char} (A : List Char) (h : p <:+: B) :
    p <:+: A ++ B := by
  obtain ⟨s, t, rfl⟩ := h
  exact ⟨A ++ s, t, by simp⟩

theorem create_html_document_parts (ctx : RendererCtx) (body : List Char) :
    "<!DOCTYPE html>".data <+: create_html_document ctx body ∧
    "<head>".data <:+: create_html_document ctx body ∧
    "<meta charset=\"UTF-8\">".data <:+: create_html_document ctx body ∧
    "<meta name=\"viewport\" content=\"width=device-width, initial-scale=1.0\">".data <:+:
      create_html_document ctx body ∧
    "<title>Markdown Preview</title>".data <:+: create_html_document ctx body ∧
    "<style>".data <:+: create_html_document ctx body ∧
    "<body>".data <:+: create_html_document ctx body ∧
    "</body>".data <:+: create_html_document ctx body ∧
    "</html>".data <:+: create_html_document ctx body := by
  unfold create_html_document
  simp only [List.append_assoc]
  refine ⟨?_, ?_, ?_, ?_, ?_, ?_, ?_, ?_, ?_⟩
  · exact List.IsPrefix.trans (by decide) (List.prefix_append _ _)
  · exact infix_appL _ (by decide)
  · exact infix_appL _ (by decide)
  · exact infix_appL _ (by decide)
  · exact infix_appL _ (by decide)
  · exact infix_appL _ (by decide)
  · exact infix_appR _ (infix_appR _ (infix_appR _ (infix_appR _
      (infix_appL _ (by decide)))))
  · exact infix_appR _ (infix_appR _ (infix_appR _ (infix_appR _
      (infix_appR _ (infix_appR _ (by decide))))))
  · exact infix_appR _ (infix_appR _ (infix_appR _ (infix_appR _
      (infix_appR _ (infix_appR _ (by decide))))))

theorem create_html_document_empty_body (ctx : RendererCtx) :
    "<body>\n\n</body>".data <:+: create_html_document ctx [] := by
  unfold create_html_document
  have h0 : clean_html ctx.nfc [] = [] := rfl
  rw [h0]
  simp only [List.append_assoc, List.nil_append]
  exact infix_appR _ (infix_appR _ (infix_appR _ (infix_appR _ (by decide))))

/-- C1: for every input text `t` (the empty string, whitespace-only
strings and control-character-only strings included) `render(t, false)`
totally returns (it is a Lean function, so it can neither raise nor
return null) a string that starts with `<!DOCTYPE html>` and contains the
head with UTF-8 charset and viewport meta tags, the title
"Markdown Preview", a style block, and a body; when the input is blank or
whitespace-only the body content is empty.  Quantifying over the whole
context covers every conversion outcome, including a raising converter. -/
theorem C1_render_complete_document (ctx : RendererCtx) (proc : MdState)
    (t : List Char) :
    "<!DOCTYPE html>".data <+: (render ctx proc t false).2 ∧
    "<head>".data <:+: (render ctx proc t false).2 ∧
    "<meta charset=\"UTF-8\">".data <:+: (render ctx proc t false).2 ∧
    "<meta name=\"viewport\" content=\"width=device-width, initial-scale=1.0\">".data <:+:
      (render ctx proc t false).2 ∧
    "<title>Markdown Preview</title>".data <:+: (render ctx proc t false).2 ∧
    "<style>".data <:+: (render ctx proc t false).2 ∧
    "<body>".data <:+: (render ctx proc t false).2 ∧
    "</body>".data <:+: (render ctx proc t false).2 ∧
    "</html>".data <:+: (render ctx proc t false).2 ∧
    (pyStrip t = [] → "<body>\n\n</body>".data <:+: (render ctx proc t false).2) := by
  obtain ⟨body, hbody, hblank⟩ :
      ∃ body, (render ctx proc t false).2 = create_html_document ctx body ∧
        (pyStrip t = [] → body = []) := by
    unfold render
    by_cases hb : pyStrip t = []
    · rw [if_pos hb]
      exact ⟨[], rfl, fun _ => rfl⟩
    · rw [if_neg hb]
      cases hconv : ctx.conv resetState (clean_text ctx.nfc t) with
      | ok pr =>
        obtain ⟨p', h'⟩ := pr
        exact ⟨fixCodeBlockStyling h', rfl, fun h => absurd h hb⟩
      | error e =>
        exact ⟨errorHtml e, rfl, fun h => absurd h hb⟩
  obtain ⟨h1, h2, h3, h4, h5, h6, h7, h8, h9⟩ := create_html_document_parts ctx body
  rw [hbody]
  refine ⟨h1, h2, h3, h4, h5, h6, h7, h8, h9, fun hb => ?_⟩
  rw [hblank hb]
  exact create_html_document_empty_body ctx

/-- Witness for C1 at a concrete context and the whitespace-only input
consisting of one tab. -/
theorem C1_witness :
    "<!DOCTYPE html>".data <+:
      (render ⟨id, fun st l => Except.ok (st, l), id, [], []⟩ resetState
        ['\t'] false).2 ∧
    "<body>\n\n</body>".data <:+:
      (render ⟨id, fun st l => Except.ok (st, l), id, [], []⟩ resetState
        ['\t'] false).2 :=
  ⟨(C1_render_complete_document _ _ _).1,
   (C1_render_complete_document ⟨id, fun st l => Except.ok (st, l), id, [], []⟩
      resetState ['\t']).2.2.2.2.2.2.2.2.2 (by decide)⟩

/-- C4: whenever the internal Markdown conversion raises, `render` does
not propagate the exception: it returns a complete HTML document whose
body is the inline error fragment
`<p><strong>Error rendering Markdown:</strong> {str(e)}</p>`.
The hypothesis `hfix` says the HTML cleaner fixes that fragment, which
holds whenever the exception text contains no problematic characters. -/
theorem C4_render_error_recovery (ctx : RendererCtx) (proc : MdState)
    (t e : List Char) (sanitize : Bool) (hne : pyStrip t ≠ [])
    (hconv : ctx.conv resetState (clean_text ctx.nfc t) = Except.error e)
    (hfix : clean_html ctx.nfc (errorHtml e) = errorHtml e) :
    (render ctx proc t sanitize).2 = create_html_document ctx (errorHtml e) ∧
    "<!DOCTYPE html>".data <+: (render ctx proc t sanitize).2 ∧
    "<p><strong>Error rendering Markdown:</strong> ".data <:+:
      (render ctx proc t sanitize).2 := by
  have hout : (render ctx proc t sanitize).2 =
      create_html_document ctx (errorHtml e) := by
    unfold render
    rw [if_neg hne, hconv]
  refine ⟨hout, ?_, ?_⟩
  · rw [hout]
    exact (create_html_document_parts ctx _).1
  · rw [hout]
    unfold create_html_document
    rw [hfix]
    simp only [List.append_assoc]
    refine infix_appR _ (infix_appR _ (infix_appR _ (infix_appR _
      (infix_appR _ ?_))))
    exact infix_appL _ ⟨[], e ++ "</p>".data, by simp [errorHtml]⟩

/-- Witness for C4: a converter that always raises with message "boom". -/
theorem C4_witness :
    (render ⟨id, fun _ _ => Except.error "boom".data, id, [], []⟩ resetState
      "x".data true).2 =
      create_html_document ⟨id, fun _ _ => Except.error "boom".data, id, [], []⟩
        (errorHtml "boom".data) ∧
    "<!DOCTYPE html>".data <+:
      (render ⟨id, fun _ _ => Except.error "boom".data, id, [], []⟩ resetState
        "x".data true).2 ∧
    "<p><strong>Error rendering Markdown:</strong> ".data <:+:
      (render ⟨id, fun _ _ => Except.error "boom".data, id, [], []⟩ resetState
        "x".data true).2 :=
  C4_render_error_recovery _ resetState "x".data "boom".data true (by decide)
    rfl (by decide)

/-- C10: on the exception path `render` embeds `str(e)` verbatim in the
returned document, with no HTML escaping, no code-styling post-processing
and no sanitisation even when `sanitize = true`: the output is the same
document for both flag values, its body is `errorHtml e` itself (not
`fixCodeBlockStyling` or `ctx.san` of anything), and `e` occurs verbatim
inside the output. -/
theorem C10_error_path_bypasses_pipeline (ctx : RendererCtx) (proc : MdState)
    (t e : List Char) (hne : pyStrip t ≠ [])
    (hconv : ctx.conv resetState (clean_text ctx.nfc t) = Except.error e)
    (hfix : clean_html ctx.nfc (errorHtml e) = errorHtml e) :
    (render ctx proc t true).2 = (render ctx proc t false).2 ∧
    (render ctx proc t true).2 = create_html_document ctx (errorHtml e) ∧
    e <:+: (render ctx proc t true).2 := by
  have hout : ∀ b : Bool, (render ctx proc t b).2 =
      create_html_document ctx (errorHtml e) := by
    intro b
    unfold render
    rw [if_neg hne, hconv]
  refine ⟨(hout true).trans (hout false).symm, hout true, ?_⟩
  rw [hout true]
  unfold create_html_document
  rw [hfix]
  simp only [List.append_assoc]
  refine infix_appR _ (infix_appR _ (infix_appR _ (infix_appR _
    (infix_appR _ ?_))))
  exact infix_appL _
    ⟨"<p><strong>Error rendering Markdown:</strong> ".data, "</p>".data,
      by simp [errorHtml]⟩

/-- Witness for C10: the exception text is itself a script tag and
survives verbatim even with sanitisation requested. -/
theorem C10_witness :
    (render ⟨id, fun _ _ => Except.error "<script>alert(1)</script>".data,
        id, [], []⟩ resetState "x".data true).2 =
      (render ⟨id, fun _ _ => Except.error "<script>alert(1)</script>".data,
        id, [], []⟩ resetState "x".data false).2 ∧
    (render ⟨id, fun _ _ => Except.error "<script>alert(1)</script>".data,
        id, [], []⟩ resetState "x".data true).2 =
      create_html_document
        ⟨id, fun _ _ => Except.error "<script>alert(1)</script>".data,
          id, [], []⟩
        (errorHtml "<script>alert(1)</script>".data) ∧
    "<script>alert(1)</script>".data <:+:
      (render ⟨id, fun _ _ => Except.error "<script>alert(1)</script>".data,
        id, [], []⟩ resetState "x".data true).2 :=
  C10_error_path_bypasses_pipeline _ resetState "x".data
    "<script>alert(1)</script>".data (by decide) rfl (by decide)

/-- C3: the converter observes no state from any prior call, because
`render` calls `reset()` before converting (markdown_renderer.py line
113): for every context (any converter and flags) the output is the same
for any two prior processor states; concretely, rendering "# Section"
twice in sequence with the modelled converter returns the identical
document both times, with anchor slug `section` and no incrementing
`section_1` suffix — while the final conjunct shows the modelled
converter really would produce `section_1` if the second conversion
reused the first one's state without the reset. -/
theorem C3_converter_stateless (ctx : RendererCtx) (p1 p2 : MdState)
    (t : List Char) (sanitize : Bool) :
    (render ctx p1 t sanitize).2 = (render ctx p2 t sanitize).2 ∧
    (render ⟨id, mdConvert, id, [], []⟩ ⟨[], none⟩ "# Section".data false).2 =
      (render ⟨id, mdConvert, id, [], []⟩
        (render ⟨id, mdConvert, id, [], []⟩ ⟨[], none⟩ "# Section".data
          false).1
        "# Section".data false).2 ∧
    "id=\"section\"".data <:+:
      (render ⟨id, mdConvert, id, [], []⟩ ⟨[], none⟩ "# Section".data
        false).2 ∧
    decide ("section_1".data <:+:
      (render ⟨id, mdConvert, id, [], []⟩ ⟨[], none⟩ "# Section".data
        false).2) = false ∧
    "id=\"section_1\"".data <:+: convertTwice "# Section".data := by
  refine ⟨?_, by decide, by decide, by decide, by decide⟩
  unfold render
  by_cases hb : pyStrip t = []
  · rw [if_pos hb, if_pos hb]
  · rw [if_neg hb, if_neg hb]

/-- C9: a blank or whitespace-only input takes the early return before
the `reset()` call (markdown_renderer.py lines 108-109), so `render`
leaves the processor state exactly unchanged, over any number of blank
renders; `get_toc` therefore still answers with the table of contents of
the last non-blank render (the final conjunct computes that TOC for a
concrete earlier render: it is present and non-empty). -/
theorem C9_blank_render_preserves_state (ctx : RendererCtx) (st : MdState)
    (b : List Char) (sanitize : Bool) (hb : pyStrip b = []) :
    (render ctx st b sanitize).1 = st ∧
    get_toc (render ctx st b sanitize).1 = get_toc st ∧
    (∀ bs : List (List Char), (∀ x ∈ bs, pyStrip x = []) →
      bs.foldl (fun s x => (render ctx s x sanitize).1) st = st) ∧
    get_toc (render ⟨id, mdConvert, id, [], []⟩ ⟨[], none⟩ "# Section".data
        false).1 =
      some "<div class=\"toc\"><ul><li><a href=\"#section\">Section</a></li></ul></div>".data := by
  have hfr : ∀ (s : MdState) (x : List Char), pyStrip x = [] →
      (render ctx s x sanitize).1 = s := by
    intro s x hx
    unfold render
    rw [if_pos hx]
  have hfold : ∀ (bs : List (List Char)), (∀ x ∈ bs, pyStrip x = []) →
      ∀ s : MdState, bs.foldl (fun s x => (render ctx s x sanitize).1) s = s := by
    intro bs
    induction bs with
    | nil => intro _ s; rfl
    | cons y ys ih =>
      intro h s
      rw [List.foldl_cons, hfr s y (h y (List.mem_cons_self _ _))]
      exact ih (fun x hx => h x (List.mem_cons_of_mem _ hx)) s
  exact ⟨hfr st b hb, by rw [hfr st b hb], fun bs h => hfold bs h st, by decide⟩

/-- Witness for C9: the state reached by rendering "# Section" is frozen
by a subsequent blank render, and `get_toc` is unchanged by it. -/
theorem C9_witness :
    (render ⟨id, mdConvert, id, [], []⟩
        (render ⟨id, mdConvert, id, [], []⟩ ⟨[], none⟩ "# Section".data
          false).1 [] false).1 =
      (render ⟨id, mdConvert, id, [], []⟩ ⟨[], none⟩ "# Section".data
        false).1 ∧
    get_toc (render ⟨id, mdConvert, id, [], []⟩
        (render ⟨id, mdConvert, id, [], []⟩ ⟨[], none⟩ "# Section".data
          false).1 [] false).1 =
      get_toc (render ⟨id, mdConvert, id, [], []⟩ ⟨[], none⟩
        "# Section".data false).1 :=
  ⟨(C9_blank_render_preserves_state ⟨id, mdConvert, id, [], []⟩
      (render ⟨id, mdConvert, id, [], []⟩ ⟨[], none⟩ "# Section".data
        false).1 [] false (by decide)).1,
   (C9_blank_render_preserves_state ⟨id, mdConvert, id, [], []⟩
      (render ⟨id, mdConvert, id, [], []⟩ ⟨[], none⟩ "# Section".data
        false).1 [] false (by decide)).2.1⟩

/-- C2: the sanitiser keeps exactly the allow-listed tags (with their
attributes filtered to the per-tag allow-list, never dropping the tag
over a bad attribute) and strips every other tag while preserving text
content; concretely, `<script>alert(1)</script><p>ok</p>` sanitises to
`alert(1)<p>ok</p>` (no `<script`, `<p>ok</p>` retained) and
`<a href="x" onclick="y">t</a>` keeps `href="x"` and loses `onclick`. -/
theorem C2_sanitize_allowlist :
    (∀ (ts : List HtmlTok) (closing : Bool) (n : String)
        (attrs : List (String × String)),
      HtmlTok.tag closing n attrs ∈ sanitizeToks ts →
        n ∈ allowed_tags ∧ ∀ p ∈ attrs, p.1 ∈ allowed_attributes n) ∧
    (∀ ts : List HtmlTok,
      (sanitizeToks ts).filterMap tokText = ts.filterMap tokText) ∧
    serializeToks (sanitizeToks scriptExample) = "alert(1)<p>ok</p>".data ∧
    decide ("<script".data <:+: serializeToks (sanitizeToks scriptExample)) =
      false ∧
    "<p>ok</p>".data <:+: serializeToks (sanitizeToks scriptExample) ∧
    serializeToks (sanitizeToks anchorExample) = "<a href=\"x\">t</a>".data ∧
    "href=\"x\"".data <:+: serializeToks (sanitizeToks anchorExample) ∧
    decide ("onclick".data <:+: serializeToks (sanitizeToks anchorExample)) =
      false := by
  refine ⟨?_, ?_, by decide, by decide, by decide, by decide, by decide,
    by decide⟩
  · intro ts closing n attrs hmem
    rcases List.mem_filterMap.mp hmem with ⟨a, _, ha⟩
    cases a with
    | text s => simp [sanitizeTok] at ha
    | tag c' n' attrs' =>
      simp only [sanitizeTok] at ha
      by_cases hn : n' ∈ allowed_tags
      · rw [if_pos hn] at ha
        injection ha with ha
        injection ha with h1 h2 h3
        subst h2
        refine ⟨hn, ?_⟩
        intro p hp
        rw [← h3] at hp
        have hf := List.mem_filter.mp hp
        exact of_decide_eq_true hf.2
      · rw [if_neg hn] at ha
        exact absurd ha (by simp)
  · intro ts
    induction ts with
    | nil => rfl
    | cons a ts ih =>
      cases a with
      | text s =>
        simpa [sanitizeToks, List.filterMap_cons, sanitizeTok, tokText]
          using ih
      | tag c' n' attrs' =>
        by_cases hn : n' ∈ allowed_tags <;>
          simpa [sanitizeToks, List.filterMap_cons, sanitizeTok, tokText, hn]
            using ih

/-- Witness for C2: the `p` tag surviving sanitisation of the script
example is on the allow-list. -/
theorem C2_witness : "p" ∈ allowed_tags :=
  (C2_sanitize_allowlist.1 scriptExample false "p" [] (by decide)).1

/-- C8: events all falling within one quiescence window of each other
coalesce into exactly one render, which fires one full window after the
last event and uses the content recorded by that last event. -/
theorem C8_debounce_coalesces (window : Nat) (e : Nat × List Char)
    (es : List (Nat × List Char))
    (hchain : List.Chain (fun a b => b.1 < a.1 + window) e es) :
    fires window (e :: es) =
      [(((e :: es).getLastD e).1 + window, ((e :: es).getLastD e).2)] := by
  revert hchain
  induction es generalizing e with
  | nil =>
    intro _
    obtain ⟨t, s⟩ := e
    rfl
  | cons e2 es ih =>
    intro hchain
    rw [List.chain_cons] at hchain
    obtain ⟨t1, s1⟩ := e
    obtain ⟨t2, s2⟩ := e2
    show fires window ((t1, s1) :: (t2, s2) :: es) = _
    rw [fires, if_pos hchain.1]
    exact ih (t2, s2) hchain.2

/-- Witness for C8: edits at t=0, t=50, t=80 with a 100 ms window produce
exactly one render, at t=180, with the t=80 content. -/
theorem C8_witness :
    fires 100 [(0, "a".data), (50, "b".data), (80, "c".data)] =
      [(180, "c".data)] :=
  (C8_debounce_coalesces 100 (0, "a".data) [(50, "b".data), (80, "c".data)]
    (List.Chain.cons (by decide)
      (List.Chain.cons (by decide) List.Chain.nil))).trans (by decide)

theorem splitTag_eq_some :
    ∀ {l m r : List Char}, splitTag l = some (m, r) →
      l = m ++ '>' :: r ∧ '>' ∉ m := by
  intro l
  induction l with
  | nil => intro m r h; simp [splitTag] at h
  | cons c cs ih =>
    intro m r h
    unfold splitTag at h
    by_cases hc : c = '>'
    · rw [if_pos hc] at h
      injection h with h
      injection h with h1 h2
      subst h1
      subst h2
      subst hc
      exact ⟨rfl, by simp⟩
    · rw [if_neg hc] at h
      cases hsp : splitTag cs with
      | none => rw [hsp] at h; cases h
      | some pr =>
        obtain ⟨m', r'⟩ := pr
        rw [hsp] at h
        injection h with h
        injection h with h1 h2
        subst h1
        subst h2
        obtain ⟨ha, hb⟩ := ih hsp
        constructor
        · rw [List.cons_append, ← ha]
        · intro hx
          rcases List.mem_cons.mp hx with hx | hx
          · exact hc hx.symm
          · exact hb hx

theorem splitTag_append {m : List Char} (r : List Char) (hm : '>' ∉ m) :
    splitTag (m ++ '>' :: r) = some (m, r) := by
  induction m with
  | nil => simp [splitTag]
  | cons c cs ih =>
    have hc : ¬ c = '>' := fun h => hm (h ▸ List.mem_cons_self c cs)
    rw [List.cons_append]
    unfold splitTag
    rw [if_neg hc, ih (fun hx => hm (List.mem_cons_of_mem _ hx))]

theorem splitTag_none_of_no_gt : ∀ {l : List Char}, '>' ∉ l → splitTag l = none := by
  intro l
  induction l with
  | nil => intro _; rfl
  | cons c cs ih =>
    intro h
    have hc : ¬ c = '>' := fun hx => h (hx ▸ List.mem_cons_self c cs)
    unfold splitTag
    rw [if_neg hc, ih (fun hx => h (List.mem_cons_of_mem _ hx))]

theorem gt_not_mem_of_splitTag_none :
    ∀ {l : List Char}, splitTag l = none → '>' ∉ l := by
  intro l
  induction l with
  | nil => intro _; simp
  | cons c cs ih =>
    intro h
    unfold splitTag at h
    by_cases hc : c = '>'
    · rw [if_pos hc] at h
      cases h
    · rw [if_neg hc] at h
      cases hsp : splitTag cs with
      | none =>
        intro hx
        rcases List.mem_cons.mp hx with hx | hx
        · exact hc hx.symm
        · exact ih hsp hx
      | some pr =>
        obtain ⟨m', r'⟩ := pr
        rw [hsp] at h
        cases h

theorem splitTag_append_left :
    ∀ {a : List Char} (b : List Char), '>' ∈ a →
      splitTag (a ++ b) =
        (splitTag a).map fun pr => (pr.1, pr.2 ++ b) := by
  intro a
  induction a with
  | nil => intro b h; exact absurd h (by simp)
  | cons c cs ih =>
    intro b h
    rw [List.cons_append]
    by_cases hc : c = '>'
    · unfold splitTag
      rw [if_pos hc, if_pos hc]
      rfl
    · have hcs : '>' ∈ cs := by
        rcases List.mem_cons.mp h with h | h
        · exact absurd h.symm hc
        · exact h
      unfold splitTag
      rw [if_neg hc, if_neg hc, ih b hcs]
      cases hsp : splitTag cs with
      | none => exact absurd hcs (gt_not_mem_of_splitTag_none hsp)
      | some pr => rfl

theorem prefix_of_append_of_le {p a : List Char} (b : List Char)
    (h : p <+: a ++ b) (hl : p.length ≤ a.length) : p <+: a := by
  have h1 := List.prefix_iff_eq_take.mp h
  rw [List.take_append_of_le_length hl] at h1
  rw [h1]
  exact List.take_prefix _ _

theorem drop_prefix_of_prefix_append {p a : List Char} (b : List Char)
    (h : p <+: a ++ b) (hl : a.length ≤ p.length) : p.drop a.length <+: b := by
  obtain ⟨t, ht⟩ := h
  have h2 := congrArg (List.drop a.length) ht
  rw [List.drop_append_of_le_length hl] at h2
  rw [List.drop_append_of_le_length (le_refl a.length),
    List.drop_eq_nil_of_le (le_refl a.length), List.nil_append] at h2
  exact ⟨t, h2⟩

theorem pat_prefix_localize {pat m b : List Char} (h : pat <+: m ++ '>' :: b)
    (hpat : '>' ∉ pat) (_hm : '>' ∉ m) :
    pat.length ≤ m.length ∧ pat <+: m := by
  by_cases hl : pat.length ≤ m.length
  · exact ⟨hl, prefix_of_append_of_le _ h hl⟩
  · exfalso
    push_neg at hl
    have hd := drop_prefix_of_prefix_append _ h (le_of_lt hl)
    cases hq : pat.drop m.length with
    | nil =>
      have hlen := List.length_drop m.length pat
      rw [hq] at hlen
      simp at hlen
      omega
    | cons q qs =>
      rw [hq] at hd
      have hq' := (List.cons_prefix_cons.mp hd).1
      exact hpat (hq' ▸ List.mem_of_mem_drop (hq ▸ List.mem_cons_self q qs))

theorem pat_in_left_of_append {pat m S : List Char} {p : Nat}
    (h : pat <+: (m ++ S).drop p)
    (hS : '<' ∉ S) (hhd : ∃ s, pat = '<' :: s)
    (hover : ∀ k, k < pat.length → 0 < k → ¬ (pat.drop k <+: S)) :
    p + pat.length ≤ m.length ∧ pat <+: m.drop p := by
  obtain ⟨s, rfl⟩ := hhd
  rw [List.drop_append_eq_append_drop] at h
  by_cases hp : p < m.length
  · have hz : p - m.length = 0 := by omega
    rw [hz, List.drop_zero] at h
    by_cases hl : ('<' :: s).length ≤ (m.drop p).length
    · refine ⟨?_, prefix_of_append_of_le _ h hl⟩
      rw [List.length_drop] at hl
      simp only [List.length_cons] at hl ⊢
      omega
    · exfalso
      push_neg at hl
      have hd := drop_prefix_of_prefix_append _ h (le_of_lt hl)
      have hlen : 0 < (m.drop p).length := by
        rw [List.length_drop]
        omega
      exact hover _ hl hlen hd
  · exfalso
    push_neg at hp
    rw [List.drop_eq_nil_of_le hp, List.nil_append] at h
    cases hSd : S.drop (p - m.length) with
    | nil =>
      rw [hSd] at h
      simp at h
    | cons x xs =>
      rw [hSd] at h
      have hx := (List.cons_prefix_cons.mp h).1
      exact hS (hx ▸ List.mem_of_mem_drop (hSd ▸ List.mem_cons_self x xs))

theorem tagChk_cons {pat S : List Char} {c : Char} {cs : List Char}
    (h : tagChk pat S (c :: cs) = true) :
    chkAt pat S (c :: cs) = true ∧ tagChk pat S cs = true := by
  simpa [tagChk, Bool.and_eq_true] using h

theorem tagChk_suffix {pat S : List Char} :
    ∀ (a : List Char) {y : List Char}, tagChk pat S (a ++ y) = true →
      tagChk pat S y = true := by
  intro a
  induction a with
  | nil => intro y h; exact h
  | cons c cs ih =>
    intro y h
    exact ih (tagChk_cons h).2

theorem tagChk_head {pat S out : List Char} (h : tagChk pat S out = true)
    (hp : pat ≠ []) (hpre : pat <+: out) : chkAt pat S out = true := by
  cases out with
  | nil =>
    cases pat with
    | nil => exact absurd rfl hp
    | cons a as => simp at hpre
  | cons c cs => exact (tagChk_cons h).1

theorem tagChk_decomp {pat S : List Char} :
    ∀ (u : List Char) {out v w : List Char}, tagChk pat S out = true →
      out = u ++ pat ++ v ++ '>' :: w → '>' ∉ v → pat ≠ [] → S <:+: v := by
  intro u
  induction u with
  | nil =>
    intro out v w h hout hv hp
    subst hout
    simp only [List.nil_append] at h
    have hpre : pat <+: pat ++ v ++ '>' :: w :=
      (List.prefix_append pat v).trans (List.prefix_append _ _)
    have h1 := tagChk_head h hp hpre
    unfold chkAt at h1
    rw [if_pos (List.isPrefixOf_iff_prefix.mpr hpre)] at h1
    have hdrop : (pat ++ v ++ '>' :: w).drop pat.length = v ++ '>' :: w := by
      rw [List.append_assoc, List.drop_append_of_le_length (le_refl _),
        List.drop_eq_nil_of_le (le_refl _), List.nil_append]
    rw [hdrop, splitTag_append _ hv] at h1
    exact of_decide_eq_true h1
  | cons a u' ih =>
    intro out v w h hout hv hp
    subst hout
    exact ih (tagChk_cons h).2 rfl hv hp

theorem splitTag_length {l m r : List Char} (h : splitTag l = some (m, r)) :
    r.length < l.length := by
  obtain ⟨hl, _⟩ := splitTag_eq_some h
  rw [hl]
  simp [List.length_append]
  omega

theorem splitTag_drop_length {c : Char} {cs m rest : List Char} {k : Nat}
    (hsp : splitTag (List.drop k (c :: cs)) = some (m, rest)) :
    rest.length ≤ cs.length := by
  have h1 := splitTag_length hsp
  have h2 := List.length_drop k (c :: cs)
  simp only [List.length_cons] at h2
  omega

theorem sub1Go_nil : ∀ f : Nat, sub1Go f [] = [] := by
  intro f
  cases f <;> rfl

theorem sub1Go_fuel :
    ∀ (n f : Nat) (x : List Char), x.length ≤ n → x.length ≤ f →
      sub1Go f x = sub1Go x.length x := by
  intro n
  induction n with
  | zero =>
    intro f x hxn _
    have hx : x = [] := List.eq_nil_of_length_eq_zero (Nat.le_zero.mp hxn)
    subst hx
    rw [sub1Go_nil, sub1Go_nil]
  | succ n ih =>
    intro f x hxn hxf
    cases x with
    | nil => rw [sub1Go_nil, sub1Go_nil]
    | cons c cs =>
      cases f with
      | zero => simp at hxf
      | succ f' =>
        show sub1Go (f' + 1) (c :: cs) = sub1Go (cs.length + 1) (c :: cs)
        unfold sub1Go
        simp only [List.length_cons] at hxn hxf
        by_cases hp : prePat.isPrefixOf (c :: cs)
        · rw [if_pos hp, if_pos hp]
          cases hsp : splitTag (List.drop 4 (c :: cs)) with
          | none =>
            dsimp only
            have h1 : sub1Go f' cs = sub1Go cs.length cs :=
              ih f' cs (by omega) (by omega)
            rw [h1]
          | some pr =>
            obtain ⟨m, rest⟩ := pr
            dsimp only
            have hr := splitTag_drop_length hsp
            have h1 : sub1Go f' rest = sub1Go rest.length rest :=
              ih f' rest (by omega) (by omega)
            have h2 : sub1Go cs.length rest = sub1Go rest.length rest :=
              ih cs.length rest (by omega) (by omega)
            rw [h1, h2]
        · rw [if_neg hp, if_neg hp]
          have h1 : sub1Go f' cs = sub1Go cs.length cs :=
            ih f' cs (by omega) (by omega)
          rw [h1]

theorem sub1Go_eq_sub1 {f : Nat} {x : List Char} (h : x.length ≤ f) :
    sub1Go f x = sub1 x :=
  sub1Go_fuel x.length f x (le_refl _) h

theorem sub1_nil : sub1 [] = [] := rfl

theorem sub1_match {c : Char} {cs m rest : List Char}
    (hp : prePat.isPrefixOf (c :: cs))
    (hsp : splitTag (List.drop 4 (c :: cs)) = some (m, rest)) :
    sub1 (c :: cs) = prePat ++ m ++ styleBlock ++ '>' :: sub1 rest := by
  show sub1Go (cs.length + 1) (c :: cs) = _
  unfold sub1Go
  rw [if_pos hp, hsp]
  dsimp only
  rw [sub1Go_eq_sub1 (splitTag_drop_length hsp)]

theorem sub1_nomatch {c : Char} {cs : List Char}
    (h : ¬ prePat.isPrefixOf (c :: cs) ∨
      splitTag (List.drop 4 (c :: cs)) = none) :
    sub1 (c :: cs) = c :: sub1 cs := by
  show sub1Go (cs.length + 1) (c :: cs) = _
  unfold sub1Go
  rcases h with h | h
  · rw [if_neg h]
    rw [sub1Go_eq_sub1 (le_refl _)]
  · by_cases hp : prePat.isPrefixOf (c :: cs)
    · rw [if_pos hp, h]
      dsimp only
      rw [sub1Go_eq_sub1 (le_refl _)]
    · rw [if_neg hp]
      rw [sub1Go_eq_sub1 (le_refl _)]

theorem findCode_eq_some :
    ∀ {l mid attrs rest : List Char},
      findCode l = some (mid, attrs, rest) →
      l = mid ++ codePat ++ attrs ++ '>' :: rest ∧ '>' ∉ attrs := by
  intro l
  induction l with
  | nil => intro mid attrs rest h; simp [findCode] at h
  | cons c cs ih =>
    intro mid attrs rest h
    unfold findCode at h
    by_cases hc : codePat.isPrefixOf (c :: cs)
    · rw [if_pos hc] at h
      cases hsp : splitTag (List.drop 5 (c :: cs)) with
      | some pr =>
        obtain ⟨a', r'⟩ := pr
        rw [hsp] at h
        simp only [Option.some.injEq, Prod.mk.injEq] at h
        obtain ⟨h1, h2, h3⟩ := h
        subst h1
        subst h2
        subst h3
        obtain ⟨hd, hgt⟩ := splitTag_eq_some hsp
        have hpre := List.isPrefixOf_iff_prefix.mp hc
        have hT := List.prefix_iff_eq_take.mp hpre
        have hlen : codePat.length = 5 := rfl
        constructor
        · conv_lhs => rw [← List.take_append_drop 5 (c :: cs)]
          rw [← hlen, ← hT, hlen, hd, List.nil_append, List.append_assoc]
        · exact hgt
      | none =>
        rw [hsp] at h
        cases hf : findCode cs with
        | none => rw [hf] at h; cases h
        | some pr =>
          obtain ⟨mid', a', r'⟩ := pr
          rw [hf] at h
          simp only [Option.map_some', Option.some.injEq, Prod.mk.injEq] at h
          obtain ⟨h1, h2, h3⟩ := h
          subst h1
          subst h2
          subst h3
          obtain ⟨hd, hgt⟩ := ih hf
          refine ⟨?_, hgt⟩
          rw [hd]
          simp [List.append_assoc]
    · rw [if_neg hc] at h
      cases hf : findCode cs with
      | none => rw [hf] at h; cases h
      | some pr =>
        obtain ⟨mid', a', r'⟩ := pr
        rw [hf] at h
        simp only [Option.map_some', Option.some.injEq, Prod.mk.injEq] at h
        obtain ⟨h1, h2, h3⟩ := h
        subst h1
        subst h2
        subst h3
        obtain ⟨hd, hgt⟩ := ih hf
        refine ⟨?_, hgt⟩
        rw [hd]
        simp [List.append_assoc]

theorem findCode_length {l mid attrs rest : List Char}
    (h : findCode l = some (mid, attrs, rest)) : rest.length < l.length := by
  obtain ⟨hl, _⟩ := findCode_eq_some h
  rw [hl]
  simp [List.length_append]
  omega

theorem sub2Go_nil : ∀ f : Nat, sub2Go f [] = [] := by
  intro f
  cases f <;> rfl

theorem sub2Go_fuel :
    ∀ (n f : Nat) (x : List Char), x.length ≤ n → x.length ≤ f →
      sub2Go f x = sub2Go x.length x := by
  intro n
  induction n with
  | zero =>
    intro f x hxn _
    have hx : x = [] := List.eq_nil_of_length_eq_zero (Nat.le_zero.mp hxn)
    subst hx
    rw [sub2Go_nil, sub2Go_nil]
  | succ n ih =>
    intro f x hxn hxf
    cases x with
    | nil => rw [sub2Go_nil, sub2Go_nil]
    | cons c cs =>
      cases f with
      | zero => simp at hxf
      | succ f' =>
        show sub2Go (f' + 1) (c :: cs) = sub2Go (cs.length + 1) (c :: cs)
        unfold sub2Go
        simp only [List.length_cons] at hxn hxf
        by_cases hp : divPat.isPrefixOf (c :: cs)
        · rw [if_pos hp, if_pos hp]
          cases hsp : splitTag (List.drop divPat.length (c :: cs)) with
          | none =>
            dsimp only
            have h1 : sub2Go f' cs = sub2Go cs.length cs :=
              ih f' cs (by omega) (by omega)
            rw [h1]
          | some pr =>
            obtain ⟨m, rest⟩ := pr
            dsimp only
            have hr := splitTag_drop_length hsp
            have h1 : sub2Go f' rest = sub2Go rest.length rest :=
              ih f' rest (by omega) (by omega)
            have h2 : sub2Go cs.length rest = sub2Go rest.length rest :=
              ih cs.length rest (by omega) (by omega)
            rw [h1, h2]
        · rw [if_neg hp, if_neg hp]
          have h1 : sub2Go f' cs = sub2Go cs.length cs :=
            ih f' cs (by omega) (by omega)
          rw [h1]

theorem sub2Go_eq_sub2 {f : Nat} {x : List Char} (h : x.length ≤ f) :
    sub2Go f x = sub2 x :=
  sub2Go_fuel x.length f x (le_refl _) h

theorem sub2_nil : sub2 [] = [] := rfl

theorem sub2_match {c : Char} {cs m rest : List Char}
    (hp : divPat.isPrefixOf (c :: cs))
    (hsp : splitTag (List.drop divPat.length (c :: cs)) = some (m, rest)) :
    sub2 (c :: cs) = divPat ++ m ++ styleBlock ++ '>' :: sub2 rest := by
  show sub2Go (cs.length + 1) (c :: cs) = _
  unfold sub2Go
  rw [if_pos hp, hsp]
  dsimp only
  rw [sub2Go_eq_sub2 (splitTag_drop_length hsp)]

theorem sub2_nomatch {c : Char} {cs : List Char}
    (h : ¬ divPat.isPrefixOf (c :: cs) ∨
      splitTag (List.drop divPat.length (c :: cs)) = none) :
    sub2 (c :: cs) = c :: sub2 cs := by
  show sub2Go (cs.length + 1) (c :: cs) = _
  unfold sub2Go
  rcases h with h | h
  · rw [if_neg h]
    rw [sub2Go_eq_sub2 (le_refl _)]
  · by_cases hp : divPat.isPrefixOf (c :: cs)
    · rw [if_pos hp, h]
      dsimp only
      rw [sub2Go_eq_sub2 (le_refl _)]
    · rw [if_neg hp]
      rw [sub2Go_eq_sub2 (le_refl _)]

theorem sub3Go_nil : ∀ f : Nat, sub3Go f [] = [] := by
  intro f
  cases f <;> rfl

theorem sub3Go_fuel :
    ∀ (n f : Nat) (x : List Char), x.length ≤ n → x.length ≤ f →
      sub3Go f x = sub3Go x.length x := by
  intro n
  induction n with
  | zero =>
    intro f x hxn _
    have hx : x = [] := List.eq_nil_of_length_eq_zero (Nat.le_zero.mp hxn)
    subst hx
    rw [sub3Go_nil, sub3Go_nil]
  | succ n ih =>
    intro f x hxn hxf
    cases x with
    | nil => rw [sub3Go_nil, sub3Go_nil]
    | cons c cs =>
      cases f with
      | zero => simp at hxf
      | succ f' =>
        show sub3Go (f' + 1) (c :: cs) = sub3Go (cs.length + 1) (c :: cs)
        unfold sub3Go
        simp only [List.length_cons] at hxn hxf
        by_cases hp : prePat.isPrefixOf (c :: cs)
        · rw [if_pos hp, if_pos hp]
          cases hsp : splitTag (List.drop 4 (c :: cs)) with
          | none =>
            dsimp only
            have h1 : sub3Go f' cs = sub3Go cs.length cs :=
              ih f' cs (by omega) (by omega)
            rw [h1]
          | some pr =>
            obtain ⟨m1, r1⟩ := pr
            dsimp only
            have hr1 := splitTag_drop_length hsp
            cases hfc : findCode r1 with
            | none =>
              dsimp only
              have h1 : sub3Go f' cs = sub3Go cs.length cs :=
                ih f' cs (by omega) (by omega)
              rw [h1]
            | some tr =>
              obtain ⟨mid, attrs, rest⟩ := tr
              dsimp only
              have hr := findCode_length hfc
              have h1 : sub3Go f' rest = sub3Go rest.length rest :=
                ih f' rest (by omega) (by omega)
              have h2 : sub3Go cs.length rest = sub3Go rest.length rest :=
                ih cs.length rest (by omega) (by omega)
              rw [h1, h2]
        · rw [if_neg hp, if_neg hp]
          have h1 : sub3Go f' cs = sub3Go cs.length cs :=
            ih f' cs (by omega) (by omega)
          rw [h1]

theorem sub3Go_eq_sub3 {f : Nat} {x : List Char} (h : x.length ≤ f) :
    sub3Go f x = sub3 x :=
  sub3Go_fuel x.length f x (le_refl _) h

theorem sub3_nil : sub3 [] = [] := rfl

theorem sub3_match {c : Char} {cs m1 r1 mid attrs rest : List Char}
    (hp : prePat.isPrefixOf (c :: cs))
    (hsp : splitTag (List.drop 4 (c :: cs)) = some (m1, r1))
    (hfc : findCode r1 = some (mid, attrs, rest)) :
    sub3 (c :: cs) =
      prePat ++ m1 ++ '>' ::
        (mid ++ codePat ++ attrs ++ codeStyle ++ '>' :: sub3 rest) := by
  show sub3Go (cs.length + 1) (c :: cs) = _
  unfold sub3Go
  rw [if_pos hp, hsp]
  dsimp only
  rw [hfc]
  dsimp only
  have hr1 := splitTag_drop_length hsp
  have hr := findCode_length hfc
  rw [sub3Go_eq_sub3 (by omega)]

theorem sub3_nomatch {c : Char} {cs : List Char}
    (h : ¬ prePat.isPrefixOf (c :: cs) ∨
      splitTag (List.drop 4 (c :: cs)) = none ∨
      (∃ m1 r1, splitTag (List.drop 4 (c :: cs)) = some (m1, r1) ∧
        findCode r1 = none)) :
    sub3 (c :: cs) = c :: sub3 cs := by
  show sub3Go (cs.length + 1) (c :: cs) = _
  unfold sub3Go
  rcases h with h | h | ⟨m1, r1, hsp, hfc⟩
  · rw [if_neg h]
    rw [sub3Go_eq_sub3 (le_refl _)]
  · by_cases hp : prePat.isPrefixOf (c :: cs)
    · rw [if_pos hp, h]
      dsimp only
      rw [sub3Go_eq_sub3 (le_refl _)]
    · rw [if_neg hp]
      rw [sub3Go_eq_sub3 (le_refl _)]
  · by_cases hp : prePat.isPrefixOf (c :: cs)
    · rw [if_pos hp, hsp]
      dsimp only
      rw [hfc]
      dsimp only
      rw [sub3Go_eq_sub3 (le_refl _)]
    · rw [if_neg hp]
      rw [sub3Go_eq_sub3 (le_refl _)]

theorem prefixHeadEq {p : List Char} {c d : Char} {cs : List Char}
    (h : p <+: c :: cs) (hp : p.head? = some d) : c = d := by
  obtain ⟨t, ht⟩ := h
  cases p with
  | nil => simp at hp
  | cons a as =>
    simp only [List.head?_cons, Option.some.injEq] at hp
    have := congrArg List.head? ht
    simp only [List.cons_append, List.head?_cons, Option.some.injEq] at this
    rw [← this, hp]

theorem sub1_cons_ne {c : Char} {cs : List Char} (hc : c ≠ '<') :
    sub1 (c :: cs) = c :: sub1 cs := by
  apply sub1_nomatch
  left
  intro hp
  exact hc (prefixHeadEq (List.isPrefixOf_iff_prefix.mp hp) rfl)

theorem sub2_cons_ne {c : Char} {cs : List Char} (hc : c ≠ '<') :
    sub2 (c :: cs) = c :: sub2 cs := by
  apply sub2_nomatch
  left
  intro hp
  exact hc (prefixHeadEq (List.isPrefixOf_iff_prefix.mp hp) rfl)

theorem sub3_cons_ne {c : Char} {cs : List Char} (hc : c ≠ '<') :
    sub3 (c :: cs) = c :: sub3 cs := by
  apply sub3_nomatch
  left
  intro hp
  exact hc (prefixHeadEq (List.isPrefixOf_iff_prefix.mp hp) rfl)

theorem sub1_copy {s : List Char} (hs : '<' ∉ s) :
    ∀ x, sub1 (s ++ x) = s ++ sub1 x := by
  induction s with
  | nil => intro x; rfl
  | cons a s' ih =>
    intro x
    have ha : a ≠ '<' := fun h => hs (h ▸ List.mem_cons_self a s')
    rw [List.cons_append, sub1_cons_ne ha,
      ih (fun h => hs (List.mem_cons_of_mem _ h)) x, List.cons_append]

theorem sub2_copy {s : List Char} (hs : '<' ∉ s) :
    ∀ x, sub2 (s ++ x) = s ++ sub2 x := by
  induction s with
  | nil => intro x; rfl
  | cons a s' ih =>
    intro x
    have ha : a ≠ '<' := fun h => hs (h ▸ List.mem_cons_self a s')
    rw [List.cons_append, sub2_cons_ne ha,
      ih (fun h => hs (List.mem_cons_of_mem _ h)) x, List.cons_append]

theorem sub3_copy {s : List Char} (hs : '<' ∉ s) :
    ∀ x, sub3 (s ++ x) = s ++ sub3 x := by
  induction s with
  | nil => intro x; rfl
  | cons a s' ih =>
    intro x
    have ha : a ≠ '<' := fun h => hs (h ▸ List.mem_cons_self a s')
    rw [List.cons_append, sub3_cons_ne ha,
      ih (fun h => hs (List.mem_cons_of_mem _ h)) x, List.cons_append]

theorem sub1_lt_head (cs : List Char) : ∃ t, sub1 ('<' :: cs) = '<' :: t := by
  by_cases hp : prePat.isPrefixOf ('<' :: cs)
  · cases hsp : splitTag (List.drop 4 ('<' :: cs)) with
    | some pr =>
      obtain ⟨m, rest⟩ := pr
      exact ⟨_, by rw [sub1_match hp hsp]; rfl⟩
    | none => exact ⟨_, by rw [sub1_nomatch (Or.inr hsp)]⟩
  · exact ⟨_, by rw [sub1_nomatch (Or.inl hp)]⟩

theorem sub2_lt_head (cs : List Char) : ∃ t, sub2 ('<' :: cs) = '<' :: t := by
  by_cases hp : divPat.isPrefixOf ('<' :: cs)
  · cases hsp : splitTag (List.drop divPat.length ('<' :: cs)) with
    | some pr =>
      obtain ⟨m, rest⟩ := pr
      exact ⟨_, by rw [sub2_match hp hsp]; rfl⟩
    | none => exact ⟨_, by rw [sub2_nomatch (Or.inr hsp)]⟩
  · exact ⟨_, by rw [sub2_nomatch (Or.inl hp)]⟩

theorem sub3_lt_head (cs : List Char) : ∃ t, sub3 ('<' :: cs) = '<' :: t := by
  by_cases hp : prePat.isPrefixOf ('<' :: cs)
  · cases hsp : splitTag (List.drop 4 ('<' :: cs)) with
    | some pr =>
      obtain ⟨m1, r1⟩ := pr
      cases hfc : findCode r1 with
      | some tr =>
        obtain ⟨mid, attrs, rest⟩ := tr
        exact ⟨_, by rw [sub3_match hp hsp hfc]; rfl⟩
      | none =>
        exact ⟨_, by rw [sub3_nomatch (Or.inr (Or.inr ⟨m1, r1, hsp, hfc⟩))]⟩
    | none => exact ⟨_, by rw [sub3_nomatch (Or.inr (Or.inl hsp))]⟩
  · exact ⟨_, by rw [sub3_nomatch (Or.inl hp)]⟩

theorem sub1_prefix_iff {s : List Char} (hs : '<' ∉ s) :
    ∀ x, s <+: sub1 x ↔ s <+: x := by
  induction s with
  | nil => intro x; simp
  | cons a s' ih =>
    intro x
    have ha : a ≠ '<' := fun h => hs (h ▸ List.mem_cons_self a s')
    have hs' : '<' ∉ s' := fun h => hs (List.mem_cons_of_mem _ h)
    cases x with
    | nil => rw [sub1_nil]
    | cons c cs =>
      by_cases hc : c = '<'
      · subst hc
        obtain ⟨t, ht⟩ := sub1_lt_head cs
        rw [ht]
        constructor
        · intro h
          exact absurd (List.cons_prefix_cons.mp h).1 ha
        · intro h
          exact absurd (List.cons_prefix_cons.mp h).1 ha
      · rw [sub1_cons_ne hc, List.cons_prefix_cons, List.cons_prefix_cons,
          ih hs' cs]

theorem sub2_prefix_iff {s : List Char} (hs : '<' ∉ s) :
    ∀ x, s <+: sub2 x ↔ s <+: x := by
  induction s with
  | nil => intro x; simp
  | cons a s' ih =>
    intro x
    have ha : a ≠ '<' := fun h => hs (h ▸ List.mem_cons_self a s')
    have hs' : '<' ∉ s' := fun h => hs (List.mem_cons_of_mem _ h)
    cases x with
    | nil => rw [sub2_nil]
    | cons c cs =>
      by_cases hc : c = '<'
      · subst hc
        obtain ⟨t, ht⟩ := sub2_lt_head cs
        rw [ht]
        constructor
        · intro h
          exact absurd (List.cons_prefix_cons.mp h).1 ha
        · intro h
          exact absurd (List.cons_prefix_cons.mp h).1 ha
      · rw [sub2_cons_ne hc, List.cons_prefix_cons, List.cons_prefix_cons,
          ih hs' cs]

theorem sub3_prefix_iff {s : List Char} (hs : '<' ∉ s) :
    ∀ x, s <+: sub3 x ↔ s <+: x := by
  induction s with
  | nil => intro x; simp
  | cons a s' ih =>
    intro x
    have ha : a ≠ '<' := fun h => hs (h ▸ List.mem_cons_self a s')
    have hs' : '<' ∉ s' := fun h => hs (List.mem_cons_of_mem _ h)
    cases x with
    | nil => rw [sub3_nil]
    | cons c cs =>
      by_cases hc : c = '<'
      · subst hc
        obtain ⟨t, ht⟩ := sub3_lt_head cs
        rw [ht]
        constructor
        · intro h
          exact absurd (List.cons_prefix_cons.mp h).1 ha
        · intro h
          exact absurd (List.cons_prefix_cons.mp h).1 ha
      · rw [sub3_cons_ne hc, List.cons_prefix_cons, List.cons_prefix_cons,
          ih hs' cs]

theorem sub1_no_gt : ∀ {x : List Char}, '>' ∉ x → sub1 x = x := by
  intro x
  induction x with
  | nil => intro _; rfl
  | cons c cs ih =>
    intro h
    have hcs : '>' ∉ cs := fun hx => h (List.mem_cons_of_mem _ hx)
    have hd : '>' ∉ List.drop 4 (c :: cs) := fun hx => h (List.mem_of_mem_drop hx)
    rw [sub1_nomatch (Or.inr (splitTag_none_of_no_gt hd)), ih hcs]

theorem sub2_no_gt : ∀ {x : List Char}, '>' ∉ x → sub2 x = x := by
  intro x
  induction x with
  | nil => intro _; rfl
  | cons c cs ih =>
    intro h
    have hcs : '>' ∉ cs := fun hx => h (List.mem_cons_of_mem _ hx)
    have hd : '>' ∉ List.drop divPat.length (c :: cs) :=
      fun hx => h (List.mem_of_mem_drop hx)
    rw [sub2_nomatch (Or.inr (splitTag_none_of_no_gt hd)), ih hcs]

theorem sub3_no_gt : ∀ {x : List Char}, '>' ∉ x → sub3 x = x := by
  intro x
  induction x with
  | nil => intro _; rfl
  | cons c cs ih =>
    intro h
    have hcs : '>' ∉ cs := fun hx => h (List.mem_cons_of_mem _ hx)
    have hd : '>' ∉ List.drop 4 (c :: cs) := fun hx => h (List.mem_of_mem_drop hx)
    rw [sub3_nomatch (Or.inr (Or.inl (splitTag_none_of_no_gt hd))), ih hcs]

theorem chkAt_not_pre {pat S : List Char} {l : List Char}
    (h : ¬ pat <+: l) : chkAt pat S l = true := by
  unfold chkAt
  rw [if_neg (fun hx => h (List.isPrefixOf_iff_prefix.mp hx))]

theorem tagChk_block {pat S : List Char} (hgt : '>' ∉ pat)
    (hhd : ∃ s, pat = '<' :: s) :
    ∀ (blk : List Char) {y : List Char}, '>' ∉ blk →
      (∀ p : Nat, pat <+: blk.drop p → S <:+: blk.drop (p + pat.length)) →
      tagChk pat S y = true → tagChk pat S (blk ++ '>' :: y) = true := by
  intro blk
  induction blk with
  | nil =>
    intro y _ _ hy
    have hchk : chkAt pat S ('>' :: y) = true := by
      apply chkAt_not_pre
      intro hx
      obtain ⟨s, rfl⟩ := hhd
      exact absurd (List.cons_prefix_cons.mp hx).1 (by decide)
    show tagChk pat S ('>' :: y) = true
    simp only [tagChk, Bool.and_eq_true]
    exact ⟨hchk, hy⟩
  | cons b blk' ih =>
    intro y hblk hocc hy
    have hblk' : '>' ∉ blk' := fun hx => hblk (List.mem_cons_of_mem _ hx)
    have htail : tagChk pat S (blk' ++ '>' :: y) = true := by
      apply ih hblk' ?_ hy
      intro p hp
      have hg := hocc (p + 1) (by rwa [List.drop_succ_cons])
      have harith : p + 1 + pat.length = (p + pat.length) + 1 := by omega
      rw [harith, List.drop_succ_cons] at hg
      exact hg
    have hchk : chkAt pat S ((b :: blk') ++ '>' :: y) = true := by
      by_cases hpp : pat <+: (b :: blk') ++ '>' :: y
      · unfold chkAt
        rw [if_pos (List.isPrefixOf_iff_prefix.mpr hpp)]
        obtain ⟨hl, hpb⟩ := pat_prefix_localize hpp hgt hblk
        rw [List.drop_append_of_le_length hl]
        rw [splitTag_append _ (fun hx => hblk (List.mem_of_mem_drop hx))]
        apply decide_eq_true
        have h0 := hocc 0 (by simpa using hpb)
        simpa using h0
      · exact chkAt_not_pre hpp
    show tagChk pat S (b :: (blk' ++ '>' :: y)) = true
    simp only [tagChk, Bool.and_eq_true]
    exact ⟨hchk, htail⟩

theorem styleBlock_occ {pat : List Char} (hhd : ∃ s, pat = '<' :: s)
    (hover : ∀ k, k < pat.length → 0 < k → ¬ (pat.drop k <+: styleBlock))
    (m : List Char) :
    ∀ p : Nat, pat <+: (m ++ styleBlock).drop p →
      styleBlock <:+: (m ++ styleBlock).drop (p + pat.length) := by
  intro p hp
  obtain ⟨hle, _⟩ := pat_in_left_of_append hp (by decide) hhd hover
  rw [List.drop_append_eq_append_drop]
  have hz : p + pat.length - m.length = 0 := by omega
  rw [hz, List.drop_zero]
  exact (List.suffix_append _ _).isInfix

theorem tagChk_sub1 : ∀ (n : Nat) (l : List Char), l.length ≤ n →
    tagChk prePat styleBlock (sub1 l) = true := by
  intro n
  induction n with
  | zero =>
    intro l hl
    have hnil : l = [] := List.eq_nil_of_length_eq_zero (Nat.le_zero.mp hl)
    subst hnil
    rfl
  | succ n ih =>
    intro l hl
    cases l with
    | nil => rfl
    | cons c cs =>
      simp only [List.length_cons] at hl
      have hnm : sub1 (c :: cs) = c :: sub1 cs →
          (prePat.isPrefixOf (c :: cs) = true →
            splitTag (List.drop 4 (c :: cs)) = none) →
          tagChk prePat styleBlock (sub1 (c :: cs)) = true := by
        intro heq hno
        rw [heq]
        simp only [tagChk, Bool.and_eq_true]
        refine ⟨?_, ih cs (by omega)⟩
        by_cases hpp : prePat <+: c :: sub1 cs
        · have hc : c = '<' := prefixHeadEq hpp rfl
          subst hc
          have htl : "pre".data <+: sub1 cs := by
            have hx := hpp
            rw [(by decide : prePat = '<' :: "pre".data)] at hx
            exact (List.cons_prefix_cons.mp hx).2
          have htl' : "pre".data <+: cs :=
            (sub1_prefix_iff (by decide) cs).mp htl
          have hin : prePat <+: '<' :: cs := by
            rw [(by decide : prePat = '<' :: "pre".data)]
            exact List.cons_prefix_cons.mpr ⟨rfl, htl'⟩
          have hnone := hno (List.isPrefixOf_iff_prefix.mpr hin)
          have hgt := gt_not_mem_of_splitTag_none hnone
          obtain ⟨cs3, hcs3⟩ := htl'
          unfold chkAt
          rw [if_pos (List.isPrefixOf_iff_prefix.mpr hpp)]
          have hdrop : ('<' :: sub1 cs).drop prePat.length =
              List.drop 3 (sub1 cs) := rfl
          rw [hdrop, ← hcs3, sub1_copy (by decide)]
          have hd3 : ("pre".data ++ sub1 cs3).drop 3 = sub1 cs3 := by
            rw [List.drop_append_of_le_length (by decide),
              List.drop_eq_nil_of_le (by decide), List.nil_append]
          rw [hd3]
          have hdropin : List.drop 4 ('<' :: cs) = cs3 := by
            rw [show List.drop 4 ('<' :: cs) = List.drop 3 cs from rfl, ← hcs3,
              List.drop_append_of_le_length (by decide),
              List.drop_eq_nil_of_le (by decide), List.nil_append]
          have hgt3 : '>' ∉ cs3 := hdropin ▸ hgt
          rw [sub1_no_gt hgt3, splitTag_none_of_no_gt hgt3]
        · exact chkAt_not_pre hpp
      by_cases hp : prePat.isPrefixOf (c :: cs)
      · cases hsp : splitTag (List.drop 4 (c :: cs)) with
        | some pr =>
          obtain ⟨m, rest⟩ := pr
          rw [sub1_match hp hsp]
          obtain ⟨_, hgtm⟩ := splitTag_eq_some hsp
          have hrest := splitTag_drop_length hsp
          have happ : prePat ++ m ++ styleBlock ++ '>' :: sub1 rest =
              ((prePat ++ m) ++ styleBlock) ++ '>' :: sub1 rest := by
            simp [List.append_assoc]
          rw [happ]
          apply tagChk_block (by decide) ⟨"pre".data, by decide⟩
          · intro hx
            rcases List.mem_append.mp hx with hx | hx
            · rcases List.mem_append.mp hx with hx | hx
              · exact absurd hx (by decide)
              · exact hgtm hx
            · exact absurd hx (by decide)
          · exact styleBlock_occ ⟨"pre".data, by decide⟩ (by decide) (prePat ++ m)
          · exact ih rest (by omega)
        | none => exact hnm (sub1_nomatch (Or.inr hsp)) (fun _ => hsp)
      · exact hnm (sub1_nomatch (Or.inl hp)) (fun hx => absurd hx hp)

theorem tagChk_sub2_div : ∀ (n : Nat) (l : List Char), l.length ≤ n →
    tagChk divPat styleBlock (sub2 l) = true := by
  intro n
  induction n with
  | zero =>
    intro l hl
    have hnil : l = [] := List.eq_nil_of_length_eq_zero (Nat.le_zero.mp hl)
    subst hnil
    rfl
  | succ n ih =>
    intro l hl
    cases l with
    | nil => rfl
    | cons c cs =>
      simp only [List.length_cons] at hl
      have hnm : sub2 (c :: cs) = c :: sub2 cs →
          (divPat.isPrefixOf (c :: cs) = true →
            splitTag (List.drop divPat.length (c :: cs)) = none) →
          tagChk divPat styleBlock (sub2 (c :: cs)) = true := by
        intro heq hno
        rw [heq]
        simp only [tagChk, Bool.and_eq_true]
        refine ⟨?_, ih cs (by omega)⟩
        by_cases hpp : divPat <+: c :: sub2 cs
        · have hc : c = '<' := prefixHeadEq hpp rfl
          subst hc
          have htl : "div class=\"codehilite\"".data <+: sub2 cs := by
            have hx := hpp
            rw [(by decide : divPat = '<' :: "div class=\"codehilite\"".data)]
              at hx
            exact (List.cons_prefix_cons.mp hx).2
          have htl' : "div class=\"codehilite\"".data <+: cs :=
            (sub2_prefix_iff (by decide) cs).mp htl
          have hin : divPat <+: '<' :: cs := by
            rw [(by decide : divPat = '<' :: "div class=\"codehilite\"".data)]
            exact List.cons_prefix_cons.mpr ⟨rfl, htl'⟩
          have hnone := hno (List.isPrefixOf_iff_prefix.mpr hin)
          have hgt := gt_not_mem_of_splitTag_none hnone
          obtain ⟨cs3, hcs3⟩ := htl'
          unfold chkAt
          rw [if_pos (List.isPrefixOf_iff_prefix.mpr hpp)]
          have hdrop : ('<' :: sub2 cs).drop divPat.length =
              List.drop 22 (sub2 cs) := rfl
          rw [hdrop, ← hcs3, sub2_copy (by decide)]
          have hd21 : ("div class=\"codehilite\"".data ++ sub2 cs3).drop 22 =
              sub2 cs3 := by
            rw [List.drop_append_of_le_length (by decide),
              List.drop_eq_nil_of_le (by decide), List.nil_append]
          rw [hd21]
          have hdropin : List.drop divPat.length ('<' :: cs) = cs3 := by
            rw [show List.drop divPat.length ('<' :: cs) = List.drop 22 cs
              from rfl, ← hcs3,
              List.drop_append_of_le_length (by decide),
              List.drop_eq_nil_of_le (by decide), List.nil_append]
          have hgt3 : '>' ∉ cs3 := hdropin ▸ hgt
          rw [sub2_no_gt hgt3, splitTag_none_of_no_gt hgt3]
        · exact chkAt_not_pre hpp
      by_cases hp : divPat.isPrefixOf (c :: cs)
      · cases hsp : splitTag (List.drop divPat.length (c :: cs)) with
        | some pr =>
          obtain ⟨m, rest⟩ := pr
          rw [sub2_match hp hsp]
          obtain ⟨_, hgtm⟩ := splitTag_eq_some hsp
          have hrest := splitTag_drop_length hsp
          have happ : divPat ++ m ++ styleBlock ++ '>' :: sub2 rest =
              ((divPat ++ m) ++ styleBlock) ++ '>' :: sub2 rest := by
            simp [List.append_assoc]
          rw [happ]
          apply tagChk_block (by decide)
            ⟨"div class=\"codehilite\"".data, by decide⟩
          · intro hx
            rcases List.mem_append.mp hx with hx | hx
            · rcases List.mem_append.mp hx with hx | hx
              · exact absurd hx (by decide)
              · exact hgtm hx
            · exact absurd hx (by decide)
          · exact styleBlock_occ ⟨"div class=\"codehilite\"".data, by decide⟩
              (by decide) (divPat ++ m)
          · exact ih rest (by omega)
        | none => exact hnm (sub2_nomatch (Or.inr hsp)) (fun _ => hsp)
      · exact hnm (sub2_nomatch (Or.inl hp)) (fun hx => absurd hx hp)

theorem sub2_span : ∀ (m b : List Char), '>' ∉ m →
    sub2 (m ++ '>' :: b) = m ++ '>' :: sub2 b ∨
    sub2 (m ++ '>' :: b) = m ++ styleBlock ++ '>' :: sub2 b := by
  intro m
  induction m with
  | nil =>
    intro b _
    left
    rw [List.nil_append, sub2_cons_ne (by decide), List.nil_append]
  | cons c m' ih =>
    intro b hm
    have hm' : '>' ∉ m' := fun h => hm (List.mem_cons_of_mem _ h)
    by_cases hp : divPat.isPrefixOf ((c :: m') ++ '>' :: b)
    · have hpre := List.isPrefixOf_iff_prefix.mp hp
      obtain ⟨hl, hpm⟩ := pat_prefix_localize hpre (by decide) hm
      obtain ⟨tail, htail⟩ := hpm
      have hgt_tail : '>' ∉ tail := by
        intro hx
        apply hm
        rw [← htail]
        exact List.mem_append.mpr (Or.inr hx)
      have hsp : splitTag (List.drop divPat.length ((c :: m') ++ '>' :: b)) =
          some (tail, b) := by
        rw [← htail, List.append_assoc, List.drop_left]
        exact splitTag_append _ hgt_tail
      right
      have heq := sub2_match
        (show divPat.isPrefixOf (c :: (m' ++ '>' :: b)) = true from hp)
        (show splitTag (List.drop divPat.length (c :: (m' ++ '>' :: b))) =
          some (tail, b) from hsp)
      rw [show (c :: m') ++ '>' :: b = c :: (m' ++ '>' :: b) from rfl, heq,
        ← htail]
    · have hp' : ¬ divPat.isPrefixOf (c :: (m' ++ '>' :: b)) = true := hp
      rw [show (c :: m') ++ '>' :: b = c :: (m' ++ '>' :: b) from rfl,
        sub2_nomatch (Or.inl hp')]
      rcases ih b hm' with h | h
      · left
        rw [h]
        rfl
      · right
        rw [h]
        rfl

theorem tagChk_sub2_pre : ∀ (n : Nat) (l : List Char), l.length ≤ n →
    tagChk prePat styleBlock l = true →
    tagChk prePat styleBlock (sub2 l) = true := by
  intro n
  induction n with
  | zero =>
    intro l hl _
    have hnil : l = [] := List.eq_nil_of_length_eq_zero (Nat.le_zero.mp hl)
    subst hnil
    rfl
  | succ n ih =>
    intro l hl hin
    cases l with
    | nil => rfl
    | cons c cs =>
      simp only [List.length_cons] at hl
      obtain ⟨hchk_in, htail_in⟩ := tagChk_cons hin
      have hnm : sub2 (c :: cs) = c :: sub2 cs →
          tagChk prePat styleBlock (sub2 (c :: cs)) = true := by
        intro heq
        rw [heq]
        simp only [tagChk, Bool.and_eq_true]
        refine ⟨?_, ih cs (by omega) htail_in⟩
        by_cases hpp : prePat <+: c :: sub2 cs
        · have hc : c = '<' := prefixHeadEq hpp rfl
          subst hc
          have htl : "pre".data <+: sub2 cs := by
            have hx := hpp
            rw [(by decide : prePat = '<' :: "pre".data)] at hx
            exact (List.cons_prefix_cons.mp hx).2
          have htl' : "pre".data <+: cs :=
            (sub2_prefix_iff (by decide) cs).mp htl
          have hin' : prePat <+: '<' :: cs := by
            rw [(by decide : prePat = '<' :: "pre".data)]
            exact List.cons_prefix_cons.mpr ⟨rfl, htl'⟩
          obtain ⟨cs3, hcs3⟩ := htl'
          unfold chkAt
          rw [if_pos (List.isPrefixOf_iff_prefix.mpr hpp)]
          have hdrop : ('<' :: sub2 cs).drop prePat.length =
              List.drop 3 (sub2 cs) := rfl
          rw [hdrop, ← hcs3, sub2_copy (by decide)]
          have hd3 : ("pre".data ++ sub2 cs3).drop 3 = sub2 cs3 := by
            rw [List.drop_append_of_le_length (by decide),
              List.drop_eq_nil_of_le (by decide), List.nil_append]
          rw [hd3]
          unfold chkAt at hchk_in
          rw [if_pos (List.isPrefixOf_iff_prefix.mpr hin')] at hchk_in
          have hdropin : ('<' :: cs).drop prePat.length = cs3 := by
            rw [show ('<' :: cs).drop prePat.length = List.drop 3 cs from rfl,
              ← hcs3, List.drop_append_of_le_length (by decide),
              List.drop_eq_nil_of_le (by decide), List.nil_append]
          rw [hdropin] at hchk_in
          cases hsp3 : splitTag cs3 with
          | none =>
            have hgt3 := gt_not_mem_of_splitTag_none hsp3
            rw [sub2_no_gt hgt3, hsp3]
          | some pr =>
            obtain ⟨m_in, r_in⟩ := pr
            rw [hsp3] at hchk_in
            have hS_in : styleBlock <:+: m_in := of_decide_eq_true hchk_in
            obtain ⟨hdec3, hgt_m⟩ := splitTag_eq_some hsp3
            rw [hdec3]
            rcases sub2_span m_in r_in hgt_m with h | h
            · rw [h, splitTag_append _ hgt_m]
              exact decide_eq_true hS_in
            · rw [h, splitTag_append _ ?_]
              · exact decide_eq_true (infix_appL _ hS_in)
              · intro hx
                rcases List.mem_append.mp hx with hx | hx
                · exact hgt_m hx
                · exact absurd hx (by decide)
        · exact chkAt_not_pre hpp
      by_cases hp : divPat.isPrefixOf (c :: cs)
      · cases hsp : splitTag (List.drop divPat.length (c :: cs)) with
        | some pr =>
          obtain ⟨m, rest⟩ := pr
          rw [sub2_match hp hsp]
          obtain ⟨hdec, hgtm⟩ := splitTag_eq_some hsp
          have hrest := splitTag_drop_length hsp
          have happ : divPat ++ m ++ styleBlock ++ '>' :: sub2 rest =
              ((divPat ++ m) ++ styleBlock) ++ '>' :: sub2 rest := by
            simp [List.append_assoc]
          rw [happ]
          apply tagChk_block (by decide) ⟨"pre".data, by decide⟩
          · intro hx
            rcases List.mem_append.mp hx with hx | hx
            · rcases List.mem_append.mp hx with hx | hx
              · exact absurd hx (by decide)
              · exact hgtm hx
            · exact absurd hx (by decide)
          · exact styleBlock_occ ⟨"pre".data, by decide⟩ (by decide)
              (divPat ++ m)
          · apply ih rest (by omega)
            apply tagChk_suffix (divPat ++ m ++ ['>'])
            have hdc : (divPat ++ m ++ ['>']) ++ rest = c :: cs := by
              have hx := List.take_append_drop divPat.length (c :: cs)
              rw [hdec] at hx
              have hT := List.prefix_iff_eq_take.mp
                (List.isPrefixOf_iff_prefix.mp hp)
              rw [← hT] at hx
              rw [← hx]
              simp [List.append_assoc]
            rw [hdc]
            exact hin
        | none => exact hnm (sub2_nomatch (Or.inr hsp))
      · exact hnm (sub2_nomatch (Or.inl hp))

theorem tagChk_ltfree_block {pat S : List Char} (hhd : ∃ s, pat = '<' :: s) :
    ∀ (I : List Char) {y : List Char}, '<' ∉ I →
      tagChk pat S y = true → tagChk pat S (I ++ '>' :: y) = true := by
  intro I
  induction I with
  | nil =>
    intro y _ hy
    show tagChk pat S ('>' :: y) = true
    simp only [tagChk, Bool.and_eq_true]
    refine ⟨chkAt_not_pre ?_, hy⟩
    intro hx
    obtain ⟨s, rfl⟩ := hhd
    exact absurd (List.cons_prefix_cons.mp hx).1 (by decide)
  | cons a I' ih =>
    intro y hI hy
    have ha : a ≠ '<' := fun h => hI (h ▸ List.mem_cons_self _ _)
    show tagChk pat S (a :: (I' ++ '>' :: y)) = true
    simp only [tagChk, Bool.and_eq_true]
    refine ⟨chkAt_not_pre ?_, ih (fun hx => hI (List.mem_cons_of_mem _ hx)) hy⟩
    intro hx
    obtain ⟨s, rfl⟩ := hhd
    exact ha (List.cons_prefix_cons.mp hx).1.symm

theorem tagChk_insert {pat S I : List Char} (hgt : '>' ∉ pat)
    (hhd : ∃ s, pat = '<' :: s) (hIgt : '>' ∉ I) (hIlt : '<' ∉ I)
    (hover : ∀ k, k < pat.length → 0 < k → ¬ (pat.drop k <+: I)) :
    ∀ (H : List Char) {rest y : List Char},
      tagChk pat S (H ++ '>' :: rest) = true →
      tagChk pat S y = true →
      tagChk pat S (H ++ I ++ '>' :: y) = true := by
  intro H
  induction H with
  | nil =>
    intro rest y _ hy
    rw [List.nil_append]
    exact tagChk_ltfree_block hhd I hIlt hy
  | cons b H' ih =>
    intro rest y hin hy
    have htail_in : tagChk pat S (H' ++ '>' :: rest) = true :=
      (tagChk_cons hin).2
    have hgoal_shape : (b :: H') ++ I ++ '>' :: y =
        b :: (H' ++ I ++ '>' :: y) := by simp
    rw [hgoal_shape]
    simp only [tagChk, Bool.and_eq_true]
    refine ⟨?_, ih htail_in hy⟩
    by_cases hpp : pat <+: b :: (H' ++ I ++ '>' :: y)
    · have hpp' : pat <+: (b :: H') ++ (I ++ '>' :: y) := by
        rw [show (b :: H') ++ (I ++ '>' :: y) = b :: (H' ++ I ++ '>' :: y)
          by simp]
        exact hpp
      by_cases hl : pat.length ≤ (b :: H').length
      · have hpb : pat <+: b :: H' := prefix_of_append_of_le _ hpp' hl
        have hpre_in : pat <+: (b :: H') ++ '>' :: rest :=
          hpb.trans (List.prefix_append _ _)
        have hpat_ne : pat ≠ [] := by
          obtain ⟨s, rfl⟩ := hhd
          simp
        have hchk_in := tagChk_head hin hpat_ne hpre_in
        unfold chkAt at hchk_in ⊢
        rw [if_pos (List.isPrefixOf_iff_prefix.mpr hpp)]
        rw [if_pos (List.isPrefixOf_iff_prefix.mpr hpre_in)] at hchk_in
        have hdg : (b :: (H' ++ I ++ '>' :: y)).drop pat.length =
            ((b :: H').drop pat.length) ++ (I ++ '>' :: y) := by
          rw [show b :: (H' ++ I ++ '>' :: y) = (b :: H') ++ (I ++ '>' :: y)
            by simp]
          rw [List.drop_append_of_le_length hl]
        have hdi : ((b :: H') ++ '>' :: rest).drop pat.length =
            ((b :: H').drop pat.length) ++ '>' :: rest :=
          List.drop_append_of_le_length hl
        rw [hdg]
        rw [hdi] at hchk_in
        by_cases hgth : '>' ∈ (b :: H').drop pat.length
        · rw [splitTag_append_left _ hgth] at hchk_in
          rw [splitTag_append_left _ hgth]
          cases hsp : splitTag ((b :: H').drop pat.length) with
          | none => exact absurd hgth (gt_not_mem_of_splitTag_none hsp)
          | some pr =>
            obtain ⟨mq, rq⟩ := pr
            rw [hsp] at hchk_in
            exact hchk_in
        · rw [splitTag_append _ hgth] at hchk_in
          have hgt2 : '>' ∉ ((b :: H').drop pat.length) ++ I := by
            intro hx
            rcases List.mem_append.mp hx with hx | hx
            · exact hgth hx
            · exact hIgt hx
          rw [show ((b :: H').drop pat.length) ++ (I ++ '>' :: y) =
            (((b :: H').drop pat.length) ++ I) ++ '>' :: y by simp,
            splitTag_append _ hgt2]
          exact decide_eq_true (infix_appL _ (of_decide_eq_true hchk_in))
      · exfalso
        push_neg at hl
        have hq := drop_prefix_of_prefix_append _ hpp' (le_of_lt hl)
        have hqgt : '>' ∉ pat.drop (b :: H').length :=
          fun hx => hgt (List.mem_of_mem_drop hx)
        have hloc := pat_prefix_localize hq hqgt hIgt
        exact hover (b :: H').length hl (by simp) hloc.2
    · exact chkAt_not_pre hpp

theorem sub3_span : ∀ (m b : List Char), '>' ∉ m →
    ∃ y, sub3 (m ++ '>' :: b) = m ++ '>' :: y := by
  intro m
  induction m with
  | nil =>
    intro b _
    refine ⟨sub3 b, ?_⟩
    rw [List.nil_append, sub3_cons_ne (by decide), List.nil_append]
  | cons c m' ih =>
    intro b hm
    have hm' : '>' ∉ m' := fun h => hm (List.mem_cons_of_mem _ h)
    have hcons : (c :: m') ++ '>' :: b = c :: (m' ++ '>' :: b) := rfl
    by_cases hp : prePat.isPrefixOf ((c :: m') ++ '>' :: b)
    · have hpre := List.isPrefixOf_iff_prefix.mp hp
      obtain ⟨hl, hpm⟩ := pat_prefix_localize hpre (by decide) hm
      obtain ⟨tail, htail⟩ := hpm
      have hgt_tail : '>' ∉ tail := by
        intro hx
        apply hm
        rw [← htail]
        exact List.mem_append.mpr (Or.inr hx)
      have hsp : splitTag (List.drop 4 ((c :: m') ++ '>' :: b)) =
          some (tail, b) := by
        rw [← htail,
          show List.drop 4 ((prePat ++ tail) ++ '>' :: b) =
            List.drop prePat.length ((prePat ++ tail) ++ '>' :: b) from rfl,
          List.append_assoc, List.drop_left]
        exact splitTag_append _ hgt_tail
      cases hfc : findCode b with
      | some tr =>
        obtain ⟨mid, attrs, rest⟩ := tr
        refine ⟨mid ++ codePat ++ attrs ++ codeStyle ++ '>' :: sub3 rest, ?_⟩
        have heq := sub3_match
          (show prePat.isPrefixOf (c :: (m' ++ '>' :: b)) = true from hp)
          (show splitTag (List.drop 4 (c :: (m' ++ '>' :: b))) =
            some (tail, b) from hsp) hfc
        rw [hcons, heq, ← htail]
      | none =>
        obtain ⟨y, hy⟩ := ih b hm'
        refine ⟨y, ?_⟩
        rw [hcons, sub3_nomatch (Or.inr (Or.inr ⟨tail, b,
          (show splitTag (List.drop 4 (c :: (m' ++ '>' :: b))) =
            some (tail, b) from hsp), hfc⟩)), hy]
        rfl
    · obtain ⟨y, hy⟩ := ih b hm'
      refine ⟨y, ?_⟩
      have hp' : ¬ prePat.isPrefixOf (c :: (m' ++ '>' :: b)) = true := hp
      rw [hcons, sub3_nomatch (Or.inl hp'), hy]
      rfl

theorem tagChk_sub3_pres {pat : List Char} (hgt : '>' ∉ pat)
    (s : List Char) (hpat_eq : pat = '<' :: s) (hslt : '<' ∉ s)
    (hover : ∀ k, k < pat.length → 0 < k → ¬ (pat.drop k <+: codeStyle)) :
    ∀ (n : Nat) (l : List Char), l.length ≤ n →
      tagChk pat styleBlock l = true →
      tagChk pat styleBlock (sub3 l) = true := by
  intro n
  induction n with
  | zero =>
    intro l hl _
    have hnil : l = [] := List.eq_nil_of_length_eq_zero (Nat.le_zero.mp hl)
    subst hnil
    rfl
  | succ n ih =>
    intro l hl hin
    cases l with
    | nil => rfl
    | cons c cs =>
      simp only [List.length_cons] at hl
      obtain ⟨hchk_in, htail_in⟩ := tagChk_cons hin
      have hnm : sub3 (c :: cs) = c :: sub3 cs →
          tagChk pat styleBlock (sub3 (c :: cs)) = true := by
        intro heq
        rw [heq]
        simp only [tagChk, Bool.and_eq_true]
        refine ⟨?_, ih cs (by omega) htail_in⟩
        by_cases hpp : pat <+: c :: sub3 cs
        · have hc : c = '<' := prefixHeadEq hpp (by rw [hpat_eq]; rfl)
          subst hc
          have htl : s <+: sub3 cs := by
            have hx := hpp
            rw [hpat_eq] at hx
            exact (List.cons_prefix_cons.mp hx).2
          have htl' : s <+: cs := (sub3_prefix_iff hslt cs).mp htl
          have hin' : pat <+: '<' :: cs := by
            rw [hpat_eq]
            exact List.cons_prefix_cons.mpr ⟨rfl, htl'⟩
          obtain ⟨cs3, hcs3⟩ := htl'
          unfold chkAt
          rw [if_pos (List.isPrefixOf_iff_prefix.mpr hpp)]
          have hplen : pat.length = s.length + 1 := by
            rw [hpat_eq]
            rfl
          have hdrop : ('<' :: sub3 cs).drop pat.length =
              List.drop s.length (sub3 cs) := by
            rw [hplen, List.drop_succ_cons]
          rw [hdrop, ← hcs3, sub3_copy hslt, List.drop_left]
          unfold chkAt at hchk_in
          rw [if_pos (List.isPrefixOf_iff_prefix.mpr hin')] at hchk_in
          have hdropin : ('<' :: cs).drop pat.length = cs3 := by
            rw [hplen, List.drop_succ_cons, ← hcs3, List.drop_left]
          rw [hdropin] at hchk_in
          cases hsp3 : splitTag cs3 with
          | none =>
            have hgt3 := gt_not_mem_of_splitTag_none hsp3
            rw [sub3_no_gt hgt3, hsp3]
          | some pr =>
            obtain ⟨m_in, r_in⟩ := pr
            rw [hsp3] at hchk_in
            have hS_in : styleBlock <:+: m_in := of_decide_eq_true hchk_in
            obtain ⟨hdec3, hgt_m⟩ := splitTag_eq_some hsp3
            rw [hdec3]
            obtain ⟨y, hy⟩ := sub3_span m_in r_in hgt_m
            rw [hy, splitTag_append _ hgt_m]
            exact decide_eq_true hS_in
        · exact chkAt_not_pre hpp
      by_cases hp : prePat.isPrefixOf (c :: cs)
      · cases hsp : splitTag (List.drop 4 (c :: cs)) with
        | some pr =>
          obtain ⟨m1, r1⟩ := pr
          cases hfc : findCode r1 with
          | some tr =>
            obtain ⟨mid, attrs, rest⟩ := tr
            rw [sub3_match hp hsp hfc]
            obtain ⟨hdec, hgtm1⟩ := splitTag_eq_some hsp
            obtain ⟨hfdec, hgta⟩ := findCode_eq_some hfc
            have hr1 := splitTag_drop_length hsp
            have hrest := findCode_length hfc
            have hshape : prePat ++ m1 ++ '>' ::
                (mid ++ codePat ++ attrs ++ codeStyle ++ '>' :: sub3 rest) =
                (prePat ++ m1 ++ '>' :: (mid ++ codePat ++ attrs)) ++
                  codeStyle ++ '>' :: sub3 rest := by
              simp [List.append_assoc]
            rw [hshape]
            have hindec : c :: cs =
                (prePat ++ m1 ++ '>' :: (mid ++ codePat ++ attrs)) ++
                  '>' :: rest := by
              have hx := List.take_append_drop 4 (c :: cs)
              have hT := List.prefix_iff_eq_take.mp
                (List.isPrefixOf_iff_prefix.mp hp)
              rw [show prePat.length = 4 from rfl] at hT
              rw [hdec, ← hT] at hx
              rw [← hx, hfdec]
              simp [List.append_assoc]
            apply tagChk_insert hgt ⟨s, hpat_eq⟩ (by decide) (by decide) hover
            · rw [← hindec]
              exact hin
            · apply ih rest (by omega)
              apply tagChk_suffix
                ((prePat ++ m1 ++ '>' :: (mid ++ codePat ++ attrs)) ++ ['>'])
              rw [show ((prePat ++ m1 ++ '>' :: (mid ++ codePat ++ attrs)) ++
                ['>']) ++ rest =
                (prePat ++ m1 ++ '>' :: (mid ++ codePat ++ attrs)) ++
                  '>' :: rest by simp]
              rw [← hindec]
              exact hin
          | none =>
            exact hnm (sub3_nomatch (Or.inr (Or.inr ⟨m1, r1, hsp, hfc⟩)))
        | none => exact hnm (sub3_nomatch (Or.inr (Or.inl hsp)))
      · exact hnm (sub3_nomatch (Or.inl hp))

theorem findCode_head {c : Char} {cs attrs rest : List Char}
    (hp : codePat.isPrefixOf (c :: cs))
    (hsp : splitTag (List.drop 5 (c :: cs)) = some (attrs, rest)) :
    findCode (c :: cs) = some ([], attrs, rest) := by
  unfold findCode
  rw [if_pos hp, hsp]

theorem findCode_shift {c : Char} {cs : List Char}
    (h : ¬ codePat.isPrefixOf (c :: cs)) :
    findCode (c :: cs) =
      (findCode cs).map fun x => (c :: x.1, x.2.1, x.2.2) := by
  conv_lhs => unfold findCode
  rw [if_neg h]

theorem findCode_first :
    ∀ (mid : List Char) {attrs rest : List Char}, '>' ∉ attrs →
      (∀ k, k < mid.length →
        ¬ codePat <+: (mid ++ codePat ++ attrs ++ '>' :: rest).drop k) →
      findCode (mid ++ codePat ++ attrs ++ '>' :: rest) =
        some (mid, attrs, rest) := by
  intro mid
  induction mid with
  | nil =>
    intro attrs rest hattrs _
    rw [List.nil_append]
    exact findCode_head
      (List.isPrefixOf_iff_prefix.mpr
        (List.prefix_append codePat (attrs ++ '>' :: rest)))
      (splitTag_append rest hattrs)
  | cons a mid' ih =>
    intro attrs rest hattrs hmid
    have h0 : ¬ codePat <+:
        ((a :: mid') ++ codePat ++ attrs ++ '>' :: rest) := by
      simpa using hmid 0 (by simp)
    have hnp : ¬ codePat.isPrefixOf
        (a :: (mid' ++ codePat ++ attrs ++ '>' :: rest)) := by
      intro hx
      exact h0 (List.isPrefixOf_iff_prefix.mp hx)
    have hm : ∀ k, k < mid'.length →
        ¬ codePat <+: (mid' ++ codePat ++ attrs ++ '>' :: rest).drop k := by
      intro k hk
      exact hmid (k + 1) (Nat.succ_lt_succ hk)
    rw [show ((a :: mid') ++ codePat ++ attrs ++ '>' :: rest : List Char) =
      a :: (mid' ++ codePat ++ attrs ++ '>' :: rest) from rfl]
    rw [findCode_shift hnp, ih hattrs hm]
    rfl

theorem sub3_first_code :
    ∀ (n : Nat) (x u v mid attrs rest : List Char),
      x.length ≤ n →
      x = u ++ prePat ++ v ++ '>' :: (mid ++ codePat ++ attrs ++ '>' :: rest) →
      '>' ∉ v → '>' ∉ attrs →
      (∀ k, k < u.length → ¬ prePat <+: x.drop k) →
      (∀ k, k < mid.length →
        ¬ codePat <+: (mid ++ codePat ++ attrs ++ '>' :: rest).drop k) →
      sub3 x = u ++ prePat ++ v ++ '>' ::
        (mid ++ codePat ++ attrs ++ codeStyle ++ '>' :: sub3 rest) := by
  intro n
  induction n with
  | zero =>
    intro x u v mid attrs rest hlen hdec _ _ _ _
    rw [hdec] at hlen
    simp only [List.length_append, List.length_cons] at hlen
    omega
  | succ n ih =>
    intro x u v mid attrs rest hlen hdec hv hattrs hu hmid
    subst hdec
    cases u with
    | nil =>
      simp only [List.nil_append]
      exact sub3_match
        (List.isPrefixOf_iff_prefix.mpr
          (List.prefix_append prePat
            (v ++ '>' :: (mid ++ codePat ++ attrs ++ '>' :: rest))))
        (splitTag_append (mid ++ codePat ++ attrs ++ '>' :: rest) hv)
        (findCode_first mid hattrs hmid)
    | cons a u' =>
      have hnp : ¬ prePat.isPrefixOf
          (a :: (u' ++ prePat ++ v ++ '>' ::
            (mid ++ codePat ++ attrs ++ '>' :: rest))) := by
        intro hx
        exact hu 0 (by simp) (List.isPrefixOf_iff_prefix.mp hx)
      have hl : (u' ++ prePat ++ v ++ '>' ::
          (mid ++ codePat ++ attrs ++ '>' :: rest)).length ≤ n := by
        simp only [List.length_append, List.length_cons] at hlen ⊢
        omega
      have hu' : ∀ k, k < u'.length →
          ¬ prePat <+: (u' ++ prePat ++ v ++ '>' ::
            (mid ++ codePat ++ attrs ++ '>' :: rest)).drop k := by
        intro k hk
        exact hu (k + 1) (Nat.succ_lt_succ hk)
      have h1 : sub3 ((a :: u') ++ prePat ++ v ++ '>' ::
          (mid ++ codePat ++ attrs ++ '>' :: rest)) =
          a :: sub3 (u' ++ prePat ++ v ++ '>' ::
            (mid ++ codePat ++ attrs ++ '>' :: rest)) :=
        sub3_nomatch (Or.inl hnp)
      rw [h1, ih _ u' v mid attrs rest hl rfl hv hattrs hu' hmid]
      rfl

/-- C7 counterexample: the claim "every `<code>` tag nested inside a
`<pre>` carries the injected inline style" is false.  On
`<pre><code>a</code><code>b</code></pre>` the post-processor styles the
`pre` tag and the first `code` tag, but the second `code` tag inside the
same `pre` is emitted verbatim as the bare `<code>` in `<code>b` — the
scan of the third regex resumes after the first match, and no further
`<pre` occurrence precedes the second `<code>`.  The styling is not even
per `<pre` occurrence: on `<pre A><code x <pre B y><code d>` the second
`<pre` occurrence lies inside the first `code` tag's attribute span, so
the first `<code>` tag following it — `<code d>` — is emitted verbatim
without the code style, as the last two conjuncts show. -/
theorem C7_counterexample :
    fixCodeBlockStyling "<pre><code>a</code><code>b</code></pre>".data =
      "<pre".data ++ styleBlock ++ ">".data ++ "<code".data ++ codeStyle ++
        ">a</code>".data ++ "<code>b</code></pre>".data ∧
    "<code>b".data <:+:
      fixCodeBlockStyling "<pre><code>a</code><code>b</code></pre>".data ∧
    fixCodeBlockStyling "<pre A><code x <pre B y><code d>".data =
      "<pre A".data ++ styleBlock ++ ">".data ++ "<code x <pre B y".data ++
        styleBlock ++ codeStyle ++ ">".data ++ "<code d>".data ∧
    "<code d>".data <:+:
      fixCodeBlockStyling "<pre A><code x <pre B y><code d>".data :=
  ⟨by decide, by decide, by decide, by
    have h : fixCodeBlockStyling "<pre A><code x <pre B y><code d>".data =
        ("<pre A".data ++ styleBlock ++ ">".data ++ "<code x <pre B y".data ++
          styleBlock ++ codeStyle ++ ">".data) ++ "<code d>".data := by
      decide
    rw [h]
    exact (List.suffix_append _ _).isInfix⟩

/-- C7 (amended): in the post-processor's output, every `<pre ...>`
opening tag and every `<div class="codehilite" ...>` opening tag carries
the injected inline style attribute (any occurrence of the pattern
followed by a `'>'`-free attribute span has `styleBlock` inside that
span); and the code style is injected per scan match of the third
regex, not per nested tag: for EVERY input, when the string entering
the third substitution decomposes at its first `<pre` occurrence into a
closed `pre` opening tag followed by the first complete `<code ...>`
tag after it, the output is exactly that string with `codeStyle`
injected into that `code` tag and the remainder rescanned — so the
first `<code>` tag following the first `<pre ...>` opening tag always
carries the injected code style, as the last conjunct shows end to end
on a concrete document. -/
theorem C7_styles_injected (html u v w mid attrs rest : List Char) :
    (fixCodeBlockStyling html = u ++ prePat ++ v ++ '>' :: w → '>' ∉ v →
      styleBlock <:+: v) ∧
    (fixCodeBlockStyling html = u ++ divPat ++ v ++ '>' :: w → '>' ∉ v →
      styleBlock <:+: v) ∧
    (sub2 (sub1 html) =
        u ++ prePat ++ v ++ '>' :: (mid ++ codePat ++ attrs ++ '>' :: rest) →
      '>' ∉ v → '>' ∉ attrs →
      (∀ k, k < u.length → ¬ prePat <+: (sub2 (sub1 html)).drop k) →
      (∀ k, k < mid.length →
        ¬ codePat <+: (mid ++ codePat ++ attrs ++ '>' :: rest).drop k) →
      fixCodeBlockStyling html = u ++ prePat ++ v ++ '>' ::
        (mid ++ codePat ++ attrs ++ codeStyle ++ '>' :: sub3 rest)) ∧
    fixCodeBlockStyling "<pre><code>x</code></pre>".data =
      "<pre".data ++ styleBlock ++ ">".data ++ "<code".data ++ codeStyle ++
        ">x</code></pre>".data := by
  refine ⟨?_, ?_, ?_, by decide⟩
  · intro hout hv
    have h1 := tagChk_sub1 html.length html (le_refl _)
    have h2 := tagChk_sub2_pre (sub1 html).length (sub1 html) (le_refl _) h1
    have h3 := tagChk_sub3_pres (by decide) "pre".data (by decide) (by decide)
      (by decide) (sub2 (sub1 html)).length (sub2 (sub1 html)) (le_refl _) h2
    exact tagChk_decomp u h3 hout hv (by decide)
  · intro hout hv
    have h2 := tagChk_sub2_div (sub1 html).length (sub1 html) (le_refl _)
    have h3 := tagChk_sub3_pres (by decide)
      "div class=\"codehilite\"".data (by decide) (by decide)
      (by decide) (sub2 (sub1 html)).length (sub2 (sub1 html)) (le_refl _) h2
    exact tagChk_decomp u h3 hout hv (by decide)
  · intro hdec hv hattrs hu hmid
    exact sub3_first_code (sub2 (sub1 html)).length (sub2 (sub1 html))
      u v mid attrs rest (le_refl _) hdec hv hattrs hu hmid

/-- Witness for C7 (amended), at the single pre/code document: the `pre`
tag's attribute span in the output is exactly the injected style, and
the universal first-code conjunct, instantiated at the string entering
the third substitution, produces the styled code tag. -/
theorem C7_witness :
    styleBlock <:+: styleBlock ∧
    fixCodeBlockStyling "<pre><code>x</code></pre>".data =
      [] ++ prePat ++ styleBlock ++ '>' ::
        ([] ++ codePat ++ [] ++ codeStyle ++ '>' ::
          sub3 "x</code></pre>".data) :=
  ⟨(C7_styles_injected "<pre><code>x</code></pre>".data [] styleBlock
        ("<code".data ++ codeStyle ++ ">x</code></pre>".data) [] []
        "x</code></pre>".data).1
      (by decide) (by decide),
    (C7_styles_injected "<pre><code>x</code></pre>".data [] styleBlock
        ("<code".data ++ codeStyle ++ ">x</code></pre>".data) [] []
        "x</code></pre>".data).2.2.1
      (by decide) (by decide) (by decide)
      (fun k hk => absurd hk (Nat.not_lt_zero k))
      (fun k hk => absurd hk (Nat.not_lt_zero k))⟩
